import Mathlib

/-!
# Water-detection BLE beacon: UART transport and BT832 command layer

A shallow embedding of `uart.c` and `bt832.c` (XC8, 8-bit PIC target).

Conventions of the embedding

* A `char` is an unsigned 8-bit value, held in a `Nat`; where the C code
  converts an `int` expression to `char` the conversion is written `% 256`.
* An `int` is 16 bits wide on the target; `wrap16` is the two's complement
  reduction of an `int` result.
* A `char *` argument is the memory it points to: a function from the offset
  to the byte stored there.  The global array `receiverString` is modelled
  the same way: offsets `0 .. MaxStringLength - 1` are the array itself and
  larger offsets are the memory that follows it.
* The serial peer is a list of bytes that arrive one after the other in
  `RCREG`; a busy-wait on `RCIF` with no byte left never ends, which is the
  result `none`.  A busy-wait on `TXIF` always ends.
* Loops whose trip count is not bounded by the input stream take a `fuel`
  argument; running out of fuel is the result `none`.
* Every effect that is visible outside the processor, and every store into
  `receiverString`, is appended to the `trace` of the machine.
-/

namespace Beacon

/-! ## Constants of `uart.h` and `bt832.h` -/

/-- Carriage return, the C character '\r'. -/
def CR : Nat := 13

/-- Line feed, the C character '\n'. -/
def LF : Nat := 10

/-- The C character '\0'. -/
def NUL : Nat := 0

/-- Capacity of `receiverString` and of the local `transmitterString`. -/
def MaxStringLength : Nat := 10

/-- Oscillator frequency in Hz. -/
def _XTAL_FREQ : Int := 4000000

/-- Flag value that enables the end-of-line characters. -/
def EOL : Bool := true

/-- Flag value that disables the end-of-line characters. -/
def No_EOL : Bool := false

/-- Largest value of the target's 16-bit `int`. -/
def INT_MAX : Int := 32767

/-! ## Machine state -/

/-- Special function registers assigned by `uart_start`. -/
inductive Reg where
  | TRISA4
  | TRISA5
  | SPBRG
  | SPBRGH
  | SPBRGL
  | BAUDCON
  | TXSTA
  | RCSTA
  deriving DecidableEq, Repr

/-- Observable effects, in program order. -/
inductive Event where
  /-- A byte written to `TXREG`. -/
  | tx (b : Nat)
  /-- A byte taken from `RCREG` by one iteration of the receive loop. -/
  | rx (b : Nat)
  /-- The assignment `receiverString[i] = v`. -/
  | store (i v : Nat)
  /-- The assignment `bt832_WakeUpPin = level`. -/
  | pin (level : Nat)
  /-- An assignment to a special function register. -/
  | reg (r : Reg) (v : Nat)
  deriving DecidableEq, Repr

/-- State of the serial link as seen by the firmware. -/
structure Machine where
  /-- Bytes the peer delivers, in order of arrival. -/
  rx : List Nat
  /-- Memory starting at `&receiverString[0]`. -/
  receiverString : Nat → Nat
  /-- Level of the latch `LATA1` (`bt832_WakeUpPin`). -/
  wakeUpPin : Nat
  /-- Effects performed so far. -/
  trace : List Event

/-- Bytes written to `TXREG`, in order. -/
def transmitted : List Event → List Nat
  | [] => []
  | Event.tx b :: es => b :: transmitted es
  | _ :: es => transmitted es

/-- Bytes of a C string literal: the characters, then zero. -/
def literal (s : List Nat) : Nat → Nat := fun i => s.getD i 0

/-- ASCII codes of the characters of a Lean string. -/
def ascii (s : String) : List Nat := s.toList.map Char.toNat

/-- The memory `mem` holds the null-terminated string `t` at offset 0. -/
def HoldsString (mem : Nat → Nat) (t : List Nat) : Prop :=
  (∀ i, i < t.length → mem i = t.getD i 0) ∧ (∀ b ∈ t, b ≠ 0) ∧ mem t.length = 0

/-- The null-terminated string that starts at offset `i`, read for at most
`n` bytes. -/
def stringAt (mem : Nat → Nat) : Nat → Nat → List Nat
  | _, 0 => []
  | i, n + 1 => if mem i = 0 then [] else mem i :: stringAt mem (i + 1) n

/-! ## `uart.c` -/

/-- The do-while loop of `uart_receiveString`.  Arguments: the bytes still to
arrive, `stringIndex`, the memory at `receiverString`, the trace.  One
iteration takes one byte from the stream; every read of `RCREG` within the
iteration yields that byte. -/
def uart_receiveString.loop :
    List Nat → Nat → (Nat → Nat) → List Event → Option (List Nat × (Nat → Nat) × List Event)
  | [], _, _, _ => none
  | RCREG :: rest, stringIndex, buf, tr =>
    let v := if RCREG ≠ CR ∧ RCREG ≠ LF then RCREG else NUL
    let buf1 := Function.update buf stringIndex v
    let tr1 := tr ++ [Event.rx RCREG, Event.store stringIndex v]
    if RCREG ≠ LF then
      uart_receiveString.loop rest ((stringIndex + 1) % 256) buf1 tr1
    else
      some (rest, buf1, tr1)

/-- Model of `uart_receiveString`: `stringIndex` starts at 0. -/
def uart_receiveString (m : Machine) : Option Machine :=
  match uart_receiveString.loop m.rx 0 m.receiverString m.trace with
  | none => none
  | some (rest, buf, tr) => some { m with rx := rest, receiverString := buf, trace := tr }

/-- Model of `uart_sendChar`: `TXREG = inputCharacter`, then the wait on `TXIF`. -/
def uart_sendChar (inputCharacter : Nat) (m : Machine) : Machine :=
  { m with trace := m.trace ++ [Event.tx inputCharacter] }

/-- The while loop of `uart_printString`.  Arguments: fuel, the index `i`,
the trace. -/
def uart_printString.loop (inputString : Nat → Nat) : Nat → Nat → List Event → Option (List Event)
  | 0, _, _ => none
  | fuel + 1, i, tr =>
    if inputString i ≠ NUL then
      uart_printString.loop inputString fuel ((i + 1) % 256) (tr ++ [Event.tx (inputString i)])
    else
      some tr

/-- Model of `uart_printString`. -/
def uart_printString (fuel : Nat) (inputString : Nat → Nat) (endOfLineCharacters : Bool)
    (m : Machine) : Option Machine :=
  match uart_printString.loop inputString fuel 0 m.trace with
  | none => none
  | some tr =>
    if endOfLineCharacters then
      some { m with trace := tr ++ [Event.tx CR, Event.tx LF] }
    else
      some { m with trace := tr }

/-- Conversion of an `int` value to `char`. -/
def toChar (x : Int) : Nat := (x % 256).toNat

/-- The digit-splitting loop of `uart_printNumber`.  Arguments: fuel,
`inputNumber`, `currentCharIndex`, the memory at `transmitterString`.  The C
operators `/` and `%` on `int` truncate toward zero. -/
def uart_printNumber.split : Nat → Int → Nat → (Nat → Nat) → Option (Nat × (Nat → Nat))
  | 0, _, _, _ => none
  | fuel + 1, inputNumber, currentCharIndex, buf =>
    if inputNumber ≠ 0 then
      uart_printNumber.split fuel (Int.tdiv inputNumber 10) ((currentCharIndex + 1) % 256)
        (Function.update buf currentCharIndex (toChar (Int.tmod inputNumber 10 + 48)))
    else
      some (currentCharIndex, buf)

/-- The in-place reversal loop of `uart_printNumber`.  Arguments: fuel, `j`,
`k`, the memory at `transmitterString`. -/
def uart_printNumber.reverse : Nat → Nat → Nat → (Nat → Nat) → Option (Nat → Nat)
  | 0, _, _, _ => none
  | fuel + 1, j, k, buf =>
    if j < k then
      let temp := buf j
      let buf1 := Function.update buf j (buf k)
      let buf2 := Function.update buf1 k temp
      uart_printNumber.reverse fuel ((j + 1) % 256) ((k + 255) % 256) buf2
    else
      some buf

/-- Model of `uart_printNumber`.  `transmitterString` is the initial content
of the memory at the local array of that name (offsets from 10 on lie behind
the array).  The transmission loop at the end of the function is the loop of
`uart_printString`, run on the local array. -/
def uart_printNumber (fuel : Nat) (transmitterString : Nat → Nat) (inputNumber : Int)
    (endOfLine : Bool) (m : Machine) : Option Machine :=
  match uart_printNumber.split fuel inputNumber 0 transmitterString with
  | none => none
  | some (idx0, buf0) =>
    let idx1 := if idx0 = 0 then (idx0 + 1) % 256 else idx0
    let buf1 := if idx0 = 0 then Function.update buf0 idx0 48 else buf0
    match uart_printNumber.reverse fuel 0 ((idx1 + 255) % 256) buf1 with
    | none => none
    | some buf2 =>
      let idx3 := if endOfLine then (idx1 + 2) % 256 else idx1
      let buf3 :=
        if endOfLine then Function.update (Function.update buf2 idx1 CR) (idx1 + 1) LF
        else buf2
      let buf4 := Function.update buf3 idx3 NUL
      match uart_printString.loop buf4 fuel 0 m.trace with
      | none => none
      | some tr => some { m with trace := tr }

/-- The while loop of `compareString`; the result is the final value of `i`. -/
def compareString.loop (referenceString inputString : Nat → Nat) : Nat → Nat → Option Nat
  | 0, _ => none
  | fuel + 1, i =>
    if referenceString i = inputString i ∧ referenceString i ≠ NUL then
      compareString.loop referenceString inputString fuel ((i + 1) % 256)
    else
      some i

/-- Model of `compareString`. -/
def compareString (fuel : Nat) (referenceString inputString : Nat → Nat) : Option Bool :=
  match compareString.loop referenceString inputString fuel 0 with
  | none => none
  | some i =>
    if referenceString i = NUL ∧ inputString i = NUL then some true else some false

/-- Two's complement reduction of a 16-bit `int` result. -/
def wrap16 (x : Int) : Int := (x + 32768) % 65536 - 32768

/-- The initialiser of the local `SPBRGValue` of `uart_start`:
`((_XTAL_FREQ / (4 * baudRate)) - (5/4))`, converted to `unsigned int`.  The
product is an `int`, the quotient and the difference are `long`; a zero
divisor has no result. -/
def SPBRGValue (baudRate : Int) : Option Nat :=
  let divisor := wrap16 (4 * baudRate)
  if divisor = 0 then none
  else some ((Int.tdiv _XTAL_FREQ divisor - Int.tdiv 5 4) % 65536).toNat

/-- Model of `uart_start`.  The events record the value on the right-hand
side of each register assignment. -/
def uart_start (baudRate : Int) (m : Machine) : Option Machine :=
  match SPBRGValue baudRate with
  | none => none
  | some v =>
    let t0 := m.trace ++ [Event.reg Reg.TRISA4 0, Event.reg Reg.TRISA5 1]
    let t1 :=
      if baudRate ≥ 9600 then t0 ++ [Event.reg Reg.SPBRG v]
      else t0 ++ [Event.reg Reg.SPBRGH ((v >>> 8) &&& 0xFF), Event.reg Reg.SPBRGL (v &&& 0xFF)]
    some { m with trace := t1 ++ [Event.reg Reg.BAUDCON 0b01001000,
      Event.reg Reg.TXSTA 0b00100100, Event.reg Reg.RCSTA 0b10010000] }

/-! ## `bt832.c` -/

/-- The sleep configuration "1". -/
def UARTOn : List Nat := [49]

/-- The sleep configuration "2". -/
def AllOff : List Nat := [50]

/-- The sleep configuration "3". -/
def AdvOn : List Nat := [51]

/-- Model of `bt832_setName`. -/
def bt832_setName (fuel : Nat) (name : Nat → Nat) (m : Machine) : Option Machine := do
  let m1 ← uart_printString fuel (literal (ascii "AT+NAME=")) No_EOL m
  let m2 ← uart_printString fuel name EOL m1
  uart_receiveString m2

/-- Model of `bt832_save`. -/
def bt832_save (fuel : Nat) (m : Machine) : Option Machine := do
  let m1 ← uart_printString fuel (literal (ascii "AT+SAVE=1")) EOL m
  uart_receiveString m1

/-- Model of `bt832_advertisingInterval`. -/
def bt832_advertisingInterval (fuel : Nat) (interval : Nat → Nat) (m : Machine) :
    Option Machine := do
  let m1 ← uart_printString fuel (literal (ascii "AT+ADINTERVAL=")) No_EOL m
  let m2 ← uart_printString fuel interval EOL m1
  uart_receiveString m2

/-- Model of `bt832_advertisingStart`. -/
def bt832_advertisingStart (fuel : Nat) (m : Machine) : Option Machine := do
  let m1 ← uart_printString fuel (literal (ascii "AT+ADSTART=")) No_EOL m
  let m2 := uart_sendChar (toChar 5) m1
  let m3 := uart_sendChar (toChar 255) m2
  let m4 := uart_sendChar (toChar 1) m3
  let m5 := uart_sendChar (toChar 1) m4
  let m6 := uart_sendChar (toChar 255) m5
  let m7 := uart_sendChar (toChar 50) m6
  uart_receiveString m7

/-- Model of `bt832_sleep`. -/
def bt832_sleep (fuel : Nat) (configuration : Nat → Nat) (m : Machine) : Option Machine := do
  let m1 ← uart_printString fuel (literal (ascii "AT+STOP=")) No_EOL m
  let m2 ← uart_printString fuel configuration EOL m1
  uart_receiveString m2

/-- Model of `bt832_send`; `!package` is 0 for a true flag and 1 otherwise. -/
def bt832_send (fuel : Nat) (package : Bool) (m : Machine) : Option Machine := do
  let m1 ← uart_printString fuel (literal (ascii "AT+ADVMANU=")) No_EOL m
  let m2 := uart_sendChar (toChar 2) m1
  let m3 := uart_sendChar (toChar (if package then 0 else 1)) m2
  let m4 := uart_sendChar (toChar 0) m3
  uart_receiveString m4

/-- Model of `bt832_command`. -/
def bt832_command (fuel : Nat) (command : Nat → Nat) (m : Machine) : Option Machine := do
  let m1 ← uart_printString fuel command EOL m
  uart_receiveString m1

/-- The value the receive loop writes for the received byte `b`. -/
def stored (b : Nat) : Nat := if b ≠ CR ∧ b ≠ LF then b else NUL

/-- Memory after the bytes `bs` were received one per iteration, the first
of them at `stringIndex = k`. -/
def writeLine : Nat → List Nat → (Nat → Nat) → (Nat → Nat)
  | _, [], buf => buf
  | k, b :: bs, buf => writeLine ((k + 1) % 256) bs (Function.update buf k (stored b))

/-- Events of the receive loop for the bytes `bs`, the first of them received
at `stringIndex = k`. -/
def lineEvents : Nat → List Nat → List Event
  | _, [] => []
  | k, b :: bs => Event.rx b :: Event.store k (stored b) :: lineEvents ((k + 1) % 256) bs

/-- Decimal ASCII representation of `n`, most significant digit first, with
no leading zero; the single character '0' for zero. -/
def decimalAscii (n : Nat) : List Nat :=
  if n = 0 then [48] else ((Nat.digits 10 n).reverse).map (fun d => d + 48)

/-- The end-of-line bytes selected by a flag. -/
def lineEnding (e : Bool) : List Nat := if e then [CR, LF] else []

/-- A call of one of the request/response commands of `bt832.c`, with its
argument. -/
inductive Command where
  | setName (name : Nat → Nat)
  | save
  | advertisingInterval (interval : Nat → Nat)
  | advertisingStart
  | sleep (configuration : Nat → Nat)
  | send (package : Bool)
  | command (command : Nat → Nat)

/-- Execution of a command call. -/
def Command.run (fuel : Nat) : Command → Machine → Option Machine
  | Command.setName name => bt832_setName fuel name
  | Command.save => bt832_save fuel
  | Command.advertisingInterval interval => bt832_advertisingInterval fuel interval
  | Command.advertisingStart => bt832_advertisingStart fuel
  | Command.sleep configuration => bt832_sleep fuel configuration
  | Command.send package => bt832_send fuel package
  | Command.command cmd => bt832_command fuel cmd

/-- The divisor as the specification words it:
`round(clockFreq / (4 × baudRate)) − 1`, with rounding to the nearest
integer, in exact rational arithmetic. -/
def roundedDivisor (baudRate : Nat) : Int :=
  round (((_XTAL_FREQ : Int) : ℚ) / (4 * (baudRate : ℚ))) - 1

/-- The machine after the request `req` was transmitted. -/
def sent (m : Machine) (req : List Nat) : Machine :=
  { m with trace := m.trace ++ req.map Event.tx }

/-! ## `uart_printNumber` with a record of the accesses to its local array -/

theorem receiveLoop_line (pre rest : List Nat) (hpre : ∀ b ∈ pre, b ≠ LF) (k : Nat)
    (buf : Nat → Nat) (tr : List Event) :
    uart_receiveString.loop (pre ++ LF :: rest) k buf tr
      = some (rest, writeLine k (pre ++ [LF]) buf, tr ++ lineEvents k (pre ++ [LF])) := by
  induction pre generalizing k buf tr with
  | nil => simp [uart_receiveString.loop, writeLine, lineEvents, stored]
  | cons b bs ih =>
    have hb : b ≠ LF := hpre b (List.mem_cons_self _ _)
    have hbs : ∀ c ∈ bs, c ≠ LF := fun c hc => hpre c (List.mem_cons_of_mem _ hc)
    simp [uart_receiveString.loop, hb, ih hbs, writeLine, lineEvents, stored]

theorem writeLine_apply (bs : List Nat) (k : Nat) (buf : Nat → Nat) (i : Nat)
    (hk : k + bs.length ≤ 256) :
    writeLine k bs buf i
      = if k ≤ i ∧ i < k + bs.length then stored (bs.getD (i - k) 0) else buf i := by
  induction bs generalizing k buf with
  | nil =>
    have hno : ¬ (k ≤ i ∧ i < k + ([] : List Nat).length) := by simp
    rw [if_neg hno]; rfl
  | cons b bs ih =>
    simp only [writeLine, List.length_cons] at hk ⊢
    cases bs with
    | nil =>
      simp only [writeLine, List.length_nil]
      by_cases hi : i = k
      · subst hi; simp
      · rw [Function.update_noteq hi, if_neg (by omega)]
    | cons c cs =>
      simp only [List.length_cons] at hk ih ⊢
      have hmod : (k + 1) % 256 = k + 1 := Nat.mod_eq_of_lt (by omega)
      rw [hmod, ih (k + 1) _ (by omega)]
      by_cases hi : i = k
      · subst hi; simp
      · rw [Function.update_noteq hi]
        by_cases h1 : k + 1 ≤ i ∧ i < k + 1 + (cs.length + 1)
        · rw [if_pos h1, if_pos (by omega)]
          have : i - k = (i - (k + 1)) + 1 := by omega
          rw [this, List.getD_cons_succ]
        · rw [if_neg h1, if_neg (by omega)]

theorem uart_receiveString_line (pre rest : List Nat) (hpre : ∀ b ∈ pre, b ≠ LF) (m : Machine)
    (hrx : m.rx = pre ++ LF :: rest) :
    uart_receiveString m = some { m with
      rx := rest
      receiverString := writeLine 0 (pre ++ [LF]) m.receiverString
      trace := m.trace ++ lineEvents 0 (pre ++ [LF]) } := by
  simp [uart_receiveString, hrx, receiveLoop_line pre rest hpre]

theorem stringAt_eq (mem : Nat → Nat) (t : List Nat) (i n : Nat)
    (hmem : ∀ j, j < t.length → mem (i + j) = t.getD j 0) (hnz : ∀ b ∈ t, b ≠ 0)
    (hend : mem (i + t.length) = 0) (hn : t.length < n) : stringAt mem i n = t := by
  induction t generalizing i n with
  | nil =>
    cases n with
    | zero => simp at hn
    | succ n => simpa [stringAt] using hend
  | cons b bs ih =>
    cases n with
    | zero => simp at hn
    | succ n =>
      have h0 : mem i = b := by simpa using hmem 0 (by simp)
      have hb : b ≠ 0 := hnz b (List.mem_cons_self _ _)
      simp only [stringAt, h0, hb, if_false]
      congr 1
      apply ih
      · intro j hj
        have := hmem (j + 1) (by simpa using hj)
        simpa [Nat.add_assoc, Nat.add_comm 1 j] using this
      · exact fun c hc => hnz c (List.mem_cons_of_mem _ hc)
      · simpa [Nat.add_assoc, Nat.add_comm 1] using hend
      · simpa using hn

theorem stored_of_payload (b : Nat) (h : b ≠ CR ∧ b ≠ LF) : stored b = b := by
  simp [stored, h.1, h.2]

/-! ## Lemmas on the transmit loop -/

theorem transmitted_append (xs ys : List Event) :
    transmitted (xs ++ ys) = transmitted xs ++ transmitted ys := by
  induction xs with
  | nil => rfl
  | cons e es ih => cases e <;> simp [transmitted, ih]

theorem transmitted_map_tx (bs : List Nat) : transmitted (bs.map Event.tx) = bs := by
  induction bs with
  | nil => rfl
  | cons b bs ih => simp [transmitted, ih]

theorem printLoop_string (mem : Nat → Nat) (t : List Nat) (i fuel : Nat) (tr : List Event)
    (hmem : ∀ j, j < t.length → mem (i + j) = t.getD j 0) (hnz : ∀ b ∈ t, b ≠ 0)
    (hend : mem (i + t.length) = 0) (hi : i + t.length < 256) (hfuel : t.length < fuel) :
    uart_printString.loop mem fuel i tr = some (tr ++ t.map Event.tx) := by
  induction t generalizing i fuel tr with
  | nil =>
    cases fuel with
    | zero => simp at hfuel
    | succ fuel => simp at hend; simp [uart_printString.loop, hend, NUL]
  | cons b bs ih =>
    cases fuel with
    | zero => simp at hfuel
    | succ fuel =>
      have h0 : mem i = b := by simpa using hmem 0 (by simp)
      have hb : b ≠ 0 := hnz b (List.mem_cons_self _ _)
      simp only [List.length_cons] at hi hfuel hend
      have hmod : (i + 1) % 256 = i + 1 := Nat.mod_eq_of_lt (by omega)
      simp only [uart_printString.loop, h0, NUL, ne_eq, hb, not_false_eq_true, if_true, hmod]
      rw [ih (i + 1) fuel]
      · simp
      · intro j hj
        have := hmem (j + 1) (by simpa using hj)
        simpa [Nat.add_assoc, Nat.add_comm 1 j] using this
      · exact fun c hc => hnz c (List.mem_cons_of_mem _ hc)
      · simpa [Nat.add_assoc, Nat.add_comm 1] using hend
      · omega
      · omega

theorem uart_printString_eq (t : List Nat) (s : Nat → Nat) (e : Bool) (m : Machine)
    (fuel : Nat) (hs : HoldsString s t) (hlen : t.length ≤ 255) (hfuel : t.length < fuel) :
    uart_printString fuel s e m
      = some { m with
          trace := m.trace ++ (t ++ if e then [CR, LF] else []).map Event.tx } := by
  have hloop := printLoop_string s t 0 fuel m.trace (by simpa using hs.1) hs.2.1
    (by simpa using hs.2.2) (by omega) hfuel
  cases e <;> simp [uart_printString, hloop]

theorem holdsString_literal (t : List Nat) (hnz : ∀ b ∈ t, b ≠ 0) :
    HoldsString (literal t) t :=
  ⟨fun _ _ => rfl, hnz, by simp [literal]⟩

/-! ## Lemmas on `uart_printNumber` -/

theorem toChar_digit (n : Nat) : toChar (Int.tmod (n : Int) 10 + 48) = n % 10 + 48 := by
  have h : Int.tmod (n : Int) 10 = ((n % 10 : Nat) : Int) := (Int.ofNat_tmod n 10).symm
  rw [h]
  unfold toChar
  omega

theorem split_digits (n : Nat) : ∀ (idx fuel : Nat) (buf : Nat → Nat),
    idx + (Nat.digits 10 n).length < 256 → (Nat.digits 10 n).length < fuel →
    ∃ buf', uart_printNumber.split fuel (n : Int) idx buf
        = some (idx + (Nat.digits 10 n).length, buf') ∧
      (∀ j, j < (Nat.digits 10 n).length → buf' (idx + j) = (Nat.digits 10 n).getD j 0 + 48) ∧
      (∀ i, i < idx → buf' i = buf i) := by
  induction n using Nat.strong_induction_on with
  | _ n ih =>
    intro idx fuel buf hidx hfuel
    cases fuel with
    | zero => simp at hfuel
    | succ fuel =>
      rcases Nat.eq_zero_or_pos n with h0 | hpos
      · subst h0
        exact ⟨buf, by simp [uart_printNumber.split], by simp, fun _ _ => rfl⟩
      · have hd : Nat.digits 10 n = n % 10 :: Nat.digits 10 (n / 10) :=
          Nat.digits_def' (by norm_num) hpos
        rw [hd] at hidx hfuel ⊢
        simp only [List.length_cons] at hidx hfuel ⊢
        have hne : (n : Int) ≠ 0 := by omega
        have hdiv : Int.tdiv (n : Int) 10 = ((n / 10 : Nat) : Int) := (Int.ofNat_tdiv n 10).symm
        have hmod : (idx + 1) % 256 = idx + 1 := Nat.mod_eq_of_lt (by omega)
        obtain ⟨buf', hrun, hcells, hlow⟩ := ih (n / 10) (Nat.div_lt_self hpos (by norm_num))
          (idx + 1) fuel (Function.update buf idx (n % 10 + 48)) (by omega) (by omega)
        refine ⟨buf', ?_, ?_, ?_⟩
        · simp only [uart_printNumber.split, ne_eq, hne, not_false_eq_true, if_true, hdiv,
            hmod, toChar_digit, hrun]
          congr 2
          omega
        · intro j hj
          cases j with
          | zero =>
            have := hlow idx (by omega)
            simpa using this
          | succ j =>
            have := hcells j (by omega)
            simpa [Nat.add_assoc, Nat.add_comm 1 j] using this
        · intro i hi
          rw [hlow i (by omega), Function.update_noteq (by omega)]

theorem reverse_spec (fuel : Nat) : ∀ (j k : Nat) (buf : Nat → Nat),
    k < 256 → k - j < fuel →
    uart_printNumber.reverse fuel j k buf
      = some (fun i => if j ≤ i ∧ i ≤ k then buf (j + k - i) else buf i) := by
  induction fuel with
  | zero => intro j k buf _ h; simp at h
  | succ fuel ih =>
    intro j k buf hk hfuel
    by_cases hjk : j < k
    · have hj1 : (j + 1) % 256 = j + 1 := Nat.mod_eq_of_lt (by omega)
      have hk1 : (k + 255) % 256 = k - 1 := by omega
      simp only [uart_printNumber.reverse, hjk, if_true, hj1, hk1]
      rw [ih (j + 1) (k - 1) _ (by omega) (by omega)]
      congr 1
      funext i
      by_cases hij : i = j
      · subst hij
        have : i + k - i = k := by omega
        have hne : i ≠ k := by omega
        rw [if_neg (by omega), if_pos (by omega), this, Function.update_noteq hne,
          Function.update_same]
      · by_cases hik : i = k
        · subst hik
          have : j + i - i = j := by omega
          rw [if_neg (by omega), if_pos (by omega), this, Function.update_same]
        · by_cases hin : j + 1 ≤ i ∧ i ≤ k - 1
          · have h1 : j + 1 + (k - 1) - i = j + k - i := by omega
            have h2 : j + k - i ≠ k := by omega
            have h3 : j + k - i ≠ j := by omega
            rw [if_pos hin, if_pos (by omega), h1]
            simp [Function.update, h2, h3]
          · rw [if_neg hin, if_neg (by omega)]
            simp [Function.update, hij, hik]
    · simp only [uart_printNumber.reverse, hjk, if_false]
      congr 1
      funext i
      by_cases hin : j ≤ i ∧ i ≤ k
      · have : i = j ∧ j = k := by omega
        rw [if_pos hin]
        obtain ⟨h1, h2⟩ := this
        subst h1; subst h2
        congr 1
        omega
      · rw [if_neg hin]

theorem getD_map_reverse (ds : List Nat) (j : Nat) (hj : j < ds.length) :
    ((ds.reverse).map (fun d => d + 48)).getD j 0 = ds.getD (ds.length - 1 - j) 0 + 48 := by
  have h1 : j < ((ds.reverse).map (fun d => d + 48)).length := by simpa using hj
  rw [List.getD_eq_getElem _ _ h1, List.getD_eq_getElem _ _ (by omega : ds.length - 1 - j < ds.length)]
  simp [List.getElem_reverse]

theorem digits_length_le_five (n : Nat) (hn : n ≤ 32767) : (Nat.digits 10 n).length ≤ 5 := by
  rcases Nat.eq_zero_or_pos n with h0 | hpos
  · subst h0; simp
  · by_contra hlen
    have h6 : 10 ^ 6 ≤ 10 ^ (Nat.digits 10 n).length :=
      Nat.pow_le_pow_right (by norm_num) (by omega)
    have := Nat.base_pow_length_digits_le 10 n (by norm_num) (by omega)
    omega

theorem uart_printNumber_eq (n : Nat) (e : Bool) (buf : Nat → Nat) (m : Machine) (fuel : Nat)
    (hlen : (Nat.digits 10 n).length ≤ 252) (hfuel : (Nat.digits 10 n).length + 3 < fuel) :
    uart_printNumber fuel buf (n : Int) e m
      = some { m with trace := m.trace ++ (decimalAscii n ++ lineEnding e).map Event.tx } := by
  obtain ⟨buf0, hsplit, hcells, -⟩ := split_digits n 0 fuel buf (by omega) (by omega)
  simp only [Nat.zero_add] at hsplit hcells
  -- the digits in memory once the zero case has been handled
  obtain ⟨ds, hds1, hds2, hdsnz, hidx1, hbuf1, hspec⟩ :
      ∃ ds : List Nat, 1 ≤ ds.length ∧ ds.length ≤ 252 ∧ ds.length + 2 < fuel ∧
        (if (Nat.digits 10 n).length = 0 then ((Nat.digits 10 n).length + 1) % 256
          else (Nat.digits 10 n).length) = ds.length ∧
        (∀ j, j < ds.length →
          (if (Nat.digits 10 n).length = 0 then Function.update buf0 (Nat.digits 10 n).length 48
            else buf0) j = ds.getD j 0 + 48) ∧
        decimalAscii n = (ds.reverse).map (fun d => d + 48) := by
    rcases Nat.eq_zero_or_pos n with h0 | hpos
    · subst h0
      refine ⟨[0], by simp, by simp, by simp at hfuel ⊢; omega, by simp, ?_, by simp [decimalAscii]⟩
      intro j hj
      have : j = 0 := by simpa using hj
      subst this
      rw [Nat.digits_zero]
      simp
    · have hne : Nat.digits 10 n ≠ [] := Nat.digits_ne_nil_iff_ne_zero.2 (by omega)
      have hpos' : (Nat.digits 10 n).length ≠ 0 := by
        intro h; exact hne (List.length_eq_zero.1 h)
      refine ⟨Nat.digits 10 n, by omega, hlen, by omega, by simp [hpos'], ?_, ?_⟩
      · intro j hj; simp only [hpos', if_false]; exact hcells j hj
      · have : n ≠ 0 := by omega
        simp [decimalAscii, this]
  unfold uart_printNumber
  rw [hsplit]
  dsimp only
  rw [hidx1, hspec]
  generalize (if (Nat.digits 10 n).length = 0 then
    Function.update buf0 (Nat.digits 10 n).length 48 else buf0) = buf1 at hbuf1 ⊢
  have hk : (ds.length + 255) % 256 = ds.length - 1 := by omega
  rw [hk, reverse_spec fuel 0 (ds.length - 1) buf1 (by omega) (by omega)]
  dsimp only
  have hdig : ∀ b ∈ (ds.reverse).map (fun d => d + 48), b ≠ 0 := by
    intro b hb
    obtain ⟨d, -, rfl⟩ := List.mem_map.1 hb
    omega
  have hrev : ∀ j, j < ds.length →
      (fun i => if 0 ≤ i ∧ i ≤ ds.length - 1 then buf1 (0 + (ds.length - 1) - i) else buf1 i) j
        = ((ds.reverse).map (fun d => d + 48)).getD j 0 := by
    intro j hj
    rw [getD_map_reverse ds j hj]
    simp only [Nat.zero_le, true_and, Nat.zero_add]
    rw [if_pos (by omega)]
    exact hbuf1 _ (by omega)
  generalize (fun i => if 0 ≤ i ∧ i ≤ ds.length - 1 then buf1 (0 + (ds.length - 1) - i)
    else buf1 i) = buf2 at hrev ⊢
  have hlenT : ((ds.reverse).map (fun d => d + 48)).length = ds.length := by simp
  cases e with
  | false =>
    simp only [Bool.false_eq_true, if_false, lineEnding, List.append_nil]
    rw [printLoop_string _ ((ds.reverse).map (fun d => d + 48)) 0 fuel m.trace]
    · intro j hj
      rw [hlenT] at hj
      rw [Nat.zero_add, Function.update_noteq (by omega), hrev j hj]
    · exact hdig
    · rw [hlenT, Nat.zero_add, Function.update_same]; rfl
    · omega
    · omega
  | true =>
    have hmod : (ds.length + 2) % 256 = ds.length + 2 := Nat.mod_eq_of_lt (by omega)
    simp only [if_true, lineEnding, hmod]
    rw [printLoop_string _ ((ds.reverse).map (fun d => d + 48) ++ [CR, LF]) 0 fuel m.trace]
    · intro j hj
      simp only [List.length_append, hlenT, List.length_cons, List.length_nil] at hj
      rw [Nat.zero_add, Function.update_noteq (by omega)]
      by_cases h1 : j < ds.length
      · rw [Function.update_noteq (by omega), Function.update_noteq (by omega), hrev j h1,
          List.getD_append _ _ _ _ (by omega)]
      · by_cases h2 : j = ds.length
        · subst h2
          rw [Function.update_noteq (by omega), Function.update_same,
            List.getD_append_right _ _ _ _ (by omega)]
          simp [hlenT]
        · have h3 : j = ds.length + 1 := by omega
          subst h3
          rw [Function.update_same, List.getD_append_right _ _ _ _ (by omega)]
          simp [hlenT]
    · intro b hb
      rcases List.mem_append.1 hb with h | h
      · exact hdig b h
      · simp [CR, LF] at h; omega
    · have hl : (List.map (fun d => d + 48) ds.reverse ++ [CR, LF]).length = ds.length + 2 := by
        simp
      rw [hl, Nat.zero_add, Function.update_same]; rfl
    · have hl : (List.map (fun d => d + 48) ds.reverse ++ [CR, LF]).length = ds.length + 2 := by
        simp
      omega
    · have hl : (List.map (fun d => d + 48) ds.reverse ++ [CR, LF]).length = ds.length + 2 := by
        simp
      omega

theorem decimalAscii_range (n : Nat) : ∀ c ∈ decimalAscii n, 48 ≤ c ∧ c ≤ 57 := by
  intro c hc
  unfold decimalAscii at hc
  split at hc
  · simp at hc; omega
  · obtain ⟨d, hd, rfl⟩ := List.mem_map.1 hc
    have := Nat.digits_lt_base (by norm_num : 1 < 10) (List.mem_reverse.1 hd)
    omega

theorem decimalAscii_value (n : Nat) :
    Nat.ofDigits 10 (((decimalAscii n).map (fun c => c - 48)).reverse) = n := by
  unfold decimalAscii
  split
  · next h => subst h; simp
  · have hid : ((fun c => c - 48) ∘ fun d => d + 48) = (id : Nat → Nat) := by
      funext d; simp
    rw [List.map_map, hid, List.map_id, List.reverse_reverse, Nat.ofDigits_digits]

theorem decimalAscii_head (n : Nat) (hn : n ≠ 0) : (decimalAscii n).head? ≠ some 48 := by
  have hne : Nat.digits 10 n ≠ [] := Nat.digits_ne_nil_iff_ne_zero.2 hn
  have hlast := Nat.getLast_digit_ne_zero 10 hn
  unfold decimalAscii
  rw [if_neg hn]
  obtain ⟨init, last, hsplit⟩ : ∃ init last, Nat.digits 10 n = init ++ [last] :=
    ⟨_, _, (List.dropLast_append_getLast hne).symm⟩
  have hl : (Nat.digits 10 n).getLast hne = last := by
    simp [hsplit]
  rw [hl] at hlast
  rw [hsplit]
  simp
  exact hlast

/-! ## Lemmas on `compareString` -/

theorem compareLoop_spec (ra rb : Nat → Nat) (a : List Nat) :
    ∀ (b : List Nat) (i fuel : Nat),
    (∀ j, j < a.length → ra (i + j) = a.getD j 0) → (∀ c ∈ a, c ≠ 0) →
    ra (i + a.length) = 0 →
    (∀ j, j < b.length → rb (i + j) = b.getD j 0) → (∀ c ∈ b, c ≠ 0) →
    rb (i + b.length) = 0 →
    i + a.length < 256 → a.length < fuel →
    ∃ k, compareString.loop ra rb fuel i = some k ∧ ((ra k = 0 ∧ rb k = 0) ↔ a = b) := by
  induction a with
  | nil =>
    intro b i fuel _ _ haend hb hbnz hbend _ hfuel
    cases fuel with
    | zero => simp at hfuel
    | succ fuel =>
      have h0 : ra i = 0 := by simpa using haend
      refine ⟨i, by simp [compareString.loop, h0, NUL], ?_⟩
      cases b with
      | nil => simpa [h0] using hbend
      | cons y ys =>
        have hy : rb i = y := by simpa using hb 0 (by simp)
        have hynz : y ≠ 0 := hbnz y (List.mem_cons_self _ _)
        simp [h0, hy, hynz]
  | cons x xs ih =>
    intro b i fuel ha hanz haend hb hbnz hbend hi hfuel
    cases fuel with
    | zero => simp at hfuel
    | succ fuel =>
      have hx : ra i = x := by simpa using ha 0 (by simp)
      have hxnz : x ≠ 0 := hanz x (List.mem_cons_self _ _)
      simp only [List.length_cons] at hi hfuel haend
      cases b with
      | nil =>
        have h0 : rb i = 0 := by simpa using hbend
        refine ⟨i, by simp [compareString.loop, hx, h0, hxnz], ?_⟩
        simp [hx, hxnz]
      | cons y ys =>
        have hy : rb i = y := by simpa using hb 0 (by simp)
        simp only [List.length_cons] at hbend
        by_cases hxy : x = y
        · subst hxy
          have hmod : (i + 1) % 256 = i + 1 := Nat.mod_eq_of_lt (by omega)
          obtain ⟨k, hk, hiff⟩ := ih ys (i + 1) fuel
            (fun j hj => by
              have := ha (j + 1) (by simpa using hj)
              simpa [Nat.add_assoc, Nat.add_comm 1 j] using this)
            (fun c hc => hanz c (List.mem_cons_of_mem _ hc))
            (by simpa [Nat.add_assoc, Nat.add_comm 1] using haend)
            (fun j hj => by
              have := hb (j + 1) (by simpa using hj)
              simpa [Nat.add_assoc, Nat.add_comm 1 j] using this)
            (fun c hc => hbnz c (List.mem_cons_of_mem _ hc))
            (by simpa [Nat.add_assoc, Nat.add_comm 1] using hbend)
            (by omega) (by omega)
          refine ⟨k, ?_, ?_⟩
          · simp only [compareString.loop, hx, hy, NUL, ne_eq, hxnz, not_false_eq_true,
              and_self, if_true, hmod, hk]
          · rw [hiff]; simp
        · refine ⟨i, by simp [compareString.loop, hx, hy, hxy], ?_⟩
          simp [hx, hxnz, hxy]

theorem compareString_eq (a b : List Nat) (ra rb : Nat → Nat) (fuel : Nat)
    (ha : HoldsString ra a) (hb : HoldsString rb b) (hla : a.length ≤ 255)
    (hfuel : a.length < fuel) :
    compareString fuel ra rb = some (decide (a = b)) := by
  obtain ⟨k, hk, hiff⟩ := compareLoop_spec ra rb a b 0 fuel (by simpa using ha.1) ha.2.1
    (by simpa using ha.2.2) (by simpa using hb.1) hb.2.1 (by simpa using hb.2.2)
    (by omega) hfuel
  unfold compareString
  rw [hk]
  by_cases hab : a = b
  · have := hiff.2 hab
    simp [NUL, this, hab]
  · have : ¬ (ra k = 0 ∧ rb k = 0) := fun h => hab (hiff.1 h)
    simp only [NUL, this, if_false, hab, decide_False]

/-! ## Lemmas on the command layer -/

theorem exists_first_LF (l : List Nat) (h : LF ∈ l) :
    ∃ pre rest, l = pre ++ LF :: rest ∧ ∀ b ∈ pre, b ≠ LF := by
  induction l with
  | nil => simp at h
  | cons x xs ih =>
    by_cases hx : x = LF
    · exact ⟨[], xs, by simp [hx], by simp⟩
    · have hxs : LF ∈ xs := by
        rcases List.mem_cons.1 h with h1 | h1
        · exact absurd h1.symm hx
        · exact h1
      obtain ⟨pre, rest, hl, hpre⟩ := ih hxs
      refine ⟨x :: pre, rest, by simp [hl], ?_⟩
      intro b hb
      rcases List.mem_cons.1 hb with h1 | h1
      · rw [h1]; exact hx
      · exact hpre b h1

theorem receiveLoop_transmitted (rx : List Nat) :
    ∀ (k : Nat) (buf : Nat → Nat) (tr : List Event) (r : List Nat × (Nat → Nat) × List Event),
    uart_receiveString.loop rx k buf tr = some r → transmitted r.2.2 = transmitted tr := by
  induction rx with
  | nil => intro k buf tr r h; simp [uart_receiveString.loop] at h
  | cons b bs ih =>
    intro k buf tr r h
    by_cases hb : b = LF
    · simp only [uart_receiveString.loop, hb, ne_eq, not_true_eq_false, if_false,
        Option.some.injEq] at h
      rw [← h]
      simp [transmitted_append, transmitted]
    · simp only [uart_receiveString.loop, ne_eq, hb, not_false_eq_true, if_true] at h
      rw [ih _ _ _ r h]
      simp [transmitted_append, transmitted]

theorem uart_receiveString_transmitted (m m' : Machine) (h : uart_receiveString m = some m') :
    transmitted m'.trace = transmitted m.trace := by
  unfold uart_receiveString at h
  cases hl : uart_receiveString.loop m.rx 0 m.receiverString m.trace with
  | none => rw [hl] at h; simp at h
  | some r =>
    rw [hl] at h
    simp only [Option.some.injEq] at h
    rw [← h]
    exact receiveLoop_transmitted _ _ _ _ _ hl

theorem transmitted_after_sent (m m' : Machine) (req : List Nat)
    (h : uart_receiveString (sent m req) = some m') :
    transmitted m'.trace = transmitted m.trace ++ req := by
  rw [uart_receiveString_transmitted _ _ h]
  simp [sent, transmitted_append, transmitted_map_tx]

theorem uart_receiveString_returns (m : Machine) (h : LF ∈ m.rx) :
    ∃ m', uart_receiveString m = some m' := by
  obtain ⟨pre, rest, hsplit, hpre⟩ := exists_first_LF m.rx h
  exact ⟨_, uart_receiveString_line pre rest hpre m hsplit⟩

theorem bt832_advertisingStart_sends (m : Machine) (fuel : Nat) (hfuel : 255 < fuel) :
    bt832_advertisingStart fuel m
      = uart_receiveString (sent m (ascii "AT+ADSTART=" ++ [5, 255, 1, 1, 255, 50])) := by
  unfold bt832_advertisingStart
  rw [uart_printString_eq (ascii "AT+ADSTART=") _ No_EOL m fuel
    (holdsString_literal _ (by decide)) (by decide)
    (by have : (ascii "AT+ADSTART=").length = 11 := by decide
        omega)]
  have h5 : toChar 5 = 5 := by decide
  have h255 : toChar 255 = 255 := by decide
  have h1 : toChar 1 = 1 := by decide
  have h50 : toChar 50 = 50 := by decide
  simp [sent, No_EOL, uart_sendChar, h5, h255, h1, h50]

theorem bt832_send_sends (package : Bool) (m : Machine) (fuel : Nat) (hfuel : 255 < fuel) :
    bt832_send fuel package m
      = uart_receiveString
          (sent m (ascii "AT+ADVMANU=" ++ [2, if package then 0 else 1, 0])) := by
  unfold bt832_send
  rw [uart_printString_eq (ascii "AT+ADVMANU=") _ No_EOL m fuel
    (holdsString_literal _ (by decide)) (by decide)
    (by have : (ascii "AT+ADVMANU=").length = 11 := by decide
        omega)]
  have h2 : toChar 2 = 2 := by decide
  have h0 : toChar 0 = 0 := by decide
  have h1 : toChar 1 = 1 := by decide
  cases package <;> simp [sent, No_EOL, uart_sendChar, h2, h0, h1]

theorem printLoop_diverges (s : Nat → Nat) (hs : ∀ i, i < 256 → s i ≠ 0) (fuel : Nat) :
    ∀ (i : Nat) (tr : List Event), i < 256 → uart_printString.loop s fuel i tr = none := by
  induction fuel with
  | zero => intro i tr _; rfl
  | succ fuel ih =>
    intro i tr hi
    simp only [uart_printString.loop, NUL, ne_eq, hs i hi, not_false_eq_true, if_true]
    exact ih _ _ (Nat.mod_lt _ (by norm_num))

theorem uart_printString_diverges (s : Nat → Nat) (hs : ∀ i, i < 256 → s i ≠ 0) (fuel : Nat)
    (e : Bool) (m : Machine) : uart_printString fuel s e m = none := by
  simp [uart_printString, printLoop_diverges s hs fuel 0 m.trace (by norm_num)]

theorem replicate_holds (n : Nat) :
    HoldsString (fun i => if i = n then 0 else 65) (List.replicate n 65) := by
  refine ⟨?_, ?_, ?_⟩
  · intro i hi
    rw [List.length_replicate] at hi
    have hne : i ≠ n := by omega
    have hi' : i < (List.replicate n 65).length := by rw [List.length_replicate]; exact hi
    rw [List.getD_eq_getElem _ 0 hi', List.getElem_replicate]
    exact if_neg hne
  · intro b hb
    rw [List.eq_of_mem_replicate hb]
    decide
  · rw [List.length_replicate]
    exact if_pos rfl

theorem longString_nonzero : ∀ i, i < 256 → (fun i => if i = 256 then 0 else 65) i ≠ 0 := by
  intro i hi
  have hne : i ≠ 256 := by omega
  simp [hne]

theorem wrap16_small (x : Int) (h0 : -32768 ≤ x) (h1 : x ≤ 32767) : wrap16 x = x := by
  unfold wrap16
  omega

theorem SPBRGValue_nat (b : Nat) (hlo : 16 ≤ b) (hhi : b ≤ 8191) :
    SPBRGValue (b : Int) = some (4000000 / (4 * b) - 1) := by
  have hq1 : 4000000 / (4 * b) ≤ 62500 := by
    calc 4000000 / (4 * b) ≤ 4000000 / 64 := Nat.div_le_div_left (by omega) (by norm_num)
      _ = 62500 := by norm_num
  have hq0 : 1 ≤ 4000000 / (4 * b) := by
    apply (Nat.one_le_div_iff (by omega)).2
    omega
  have hw : wrap16 (4 * (b : Int)) = ((4 * b : Nat) : Int) := by
    rw [wrap16_small _ (by omega) (by omega)]
    push_cast
    rfl
  have hne : ((4 * b : Nat) : Int) ≠ 0 := by omega
  have hdiv : Int.tdiv _XTAL_FREQ ((4 * b : Nat) : Int) = ((4000000 / (4 * b) : Nat) : Int) := by
    rw [Int.tdiv_eq_ediv (by decide) (by omega), Int.natCast_div]
    rfl
  have h54 : Int.tdiv 5 4 = 1 := by decide
  simp only [SPBRGValue, hw, hne, if_false, hdiv, h54, Option.some.injEq]
  generalize 4000000 / (4 * b) = q at hq0 hq1 ⊢
  omega

theorem SPBRGValue_overflow_9600 : SPBRGValue 9600 = some 65388 := by decide

theorem SPBRGValue_truncated_1 : SPBRGValue 1 = some 16959 := by decide

/-! ## Lemmas on the stored line -/

theorem takeWhile_line (pre : List Nat) :
    (∀ j, j < (pre.takeWhile (fun b => b ≠ CR)).length →
      (pre ++ [LF]).getD j 0 = (pre.takeWhile (fun b => b ≠ CR)).getD j 0) ∧
    (∀ b ∈ pre.takeWhile (fun b => b ≠ CR), b ∈ pre ∧ b ≠ CR) ∧
    stored ((pre ++ [LF]).getD (pre.takeWhile (fun b => b ≠ CR)).length 0) = 0 ∧
    (pre.takeWhile (fun b => b ≠ CR)).length ≤ pre.length := by
  induction pre with
  | nil => simp [stored, NUL]
  | cons x xs ih =>
    obtain ⟨h1, h2, h3, h4⟩ := ih
    by_cases hx : x = CR
    · subst hx
      simp [List.takeWhile_cons, stored, NUL]
    · have htw : (x :: xs).takeWhile (fun b => b ≠ CR) = x :: xs.takeWhile (fun b => b ≠ CR) := by
        simp [List.takeWhile_cons, hx]
      rw [htw]
      refine ⟨?_, ?_, ?_, ?_⟩
      · intro j hj
        cases j with
        | zero => simp
        | succ j =>
          have := h1 j (by simpa using hj)
          simpa using this
      · intro b hb
        rcases List.mem_cons.1 hb with h | h
        · subst h; exact ⟨List.mem_cons_self _ _, hx⟩
        · exact ⟨List.mem_cons_of_mem _ (h2 b h).1, (h2 b h).2⟩
      · simpa using h3
      · simpa using h4

theorem filter_eq_takeWhile (pre : List Nat)
    (h : ∀ b ∈ pre.dropWhile (fun b => b ≠ CR), b = CR) :
    pre.filter (fun b => b ≠ CR) = pre.takeWhile (fun b => b ≠ CR) := by
  induction pre with
  | nil => rfl
  | cons x xs ih =>
    by_cases hx : x = CR
    · subst hx
      have hall : ∀ b ∈ xs, b = CR := by
        intro b hb
        apply h
        simp [List.dropWhile_cons, hb]
      have : xs.filter (fun b => b ≠ CR) = [] := by
        apply List.filter_eq_nil_iff.2
        intro b hb
        simp [hall b hb]
      rw [List.takeWhile_cons, List.filter_cons]
      simp only [ne_eq, not_true_eq_false, decide_False, Bool.false_eq_true, if_false]
      exact this
    · have hd : (x :: xs).dropWhile (fun b => b ≠ CR) = xs.dropWhile (fun b => b ≠ CR) := by
        simp [List.dropWhile_cons, hx]
      rw [hd] at h
      rw [List.takeWhile_cons, List.filter_cons]
      simp only [ne_eq, hx, not_false_eq_true, decide_True, if_true]
      rw [ih h]

theorem storedLine_eq (pre : List Nat) (buf : Nat → Nat) (hpre : ∀ b ∈ pre, b ≠ LF)
    (hnul : ∀ b ∈ pre, b ≠ NUL) (hlen : pre.length < MaxStringLength) :
    stringAt (writeLine 0 (pre ++ [LF]) buf) 0 MaxStringLength
      = pre.takeWhile (fun b => b ≠ CR) := by
  obtain ⟨h1, h2, h3, h4⟩ := takeWhile_line pre
  unfold MaxStringLength at hlen ⊢
  have hcell : ∀ i, i < pre.length + 1 →
      writeLine 0 (pre ++ [LF]) buf i = stored ((pre ++ [LF]).getD i 0) := by
    intro i hi
    rw [writeLine_apply _ _ _ _ (by simp; omega), if_pos (by simp; omega)]
    simp
  apply stringAt_eq
  · intro j hj
    rw [Nat.zero_add, hcell j (by omega), h1 j hj]
    have hj' : (pre.takeWhile (fun b => b ≠ CR)).getD j 0 ∈ pre.takeWhile (fun b => b ≠ CR) := by
      rw [List.getD_eq_getElem _ 0 hj]; exact List.getElem_mem hj
    obtain ⟨hm, hcr⟩ := h2 _ hj'
    exact stored_of_payload _ ⟨hcr, hpre _ hm⟩
  · intro b hb
    exact hnul b (h2 b hb).1
  · rw [Nat.zero_add, hcell _ (by omega)]
    exact h3
  · omega

/-! ## Lemmas on blocking and on the wake-up sequence -/

theorem two_bytes_recombine (v : Nat) (h : v < 65536) :
    ((v >>> 8) &&& 0xFF) * 256 + (v &&& 0xFF) = v := by
  have h1 : v &&& 0xFF = v % 256 := Nat.and_pow_two_sub_one_eq_mod v 8
  have h2 : (v >>> 8) &&& 0xFF = (v >>> 8) % 256 := Nat.and_pow_two_sub_one_eq_mod _ 8
  rw [h1, h2, Nat.shiftRight_eq_div_pow]
  omega

theorem SPBRGValue_lt (b : Int) (v : Nat) (h : SPBRGValue b = some v) : v < 65536 := by
  unfold SPBRGValue at h
  by_cases h0 : wrap16 (4 * b) = 0
  · simp [h0] at h
  · simp only [h0, if_false, Option.some.injEq] at h
    omega

/-- Below the threshold the divisor is written as two bytes that recombine to
the computed value. -/
theorem uart_start_below_threshold (b : Int) (v : Nat) (m : Machine) (hb : b < 9600)
    (hv : SPBRGValue b = some v) :
    uart_start b m = some { m with trace := m.trace ++
      [Event.reg Reg.TRISA4 0, Event.reg Reg.TRISA5 1,
        Event.reg Reg.SPBRGH ((v >>> 8) &&& 0xFF), Event.reg Reg.SPBRGL (v &&& 0xFF),
        Event.reg Reg.BAUDCON 0b01001000, Event.reg Reg.TXSTA 0b00100100,
        Event.reg Reg.RCSTA 0b10010000] } ∧
    ((v >>> 8) &&& 0xFF) * 256 + (v &&& 0xFF) = v := by
  have hnot : ¬ b ≥ 9600 := by omega
  refine ⟨?_, two_bytes_recombine v (SPBRGValue_lt b v hv)⟩
  simp [uart_start, hv, hnot]

/-- From the threshold on the divisor is written with the single assignment
to `SPBRG`. -/
theorem uart_start_from_threshold (b : Int) (v : Nat) (m : Machine) (hb : 9600 ≤ b)
    (hv : SPBRGValue b = some v) :
    uart_start b m = some { m with trace := m.trace ++
      [Event.reg Reg.TRISA4 0, Event.reg Reg.TRISA5 1, Event.reg Reg.SPBRG v,
        Event.reg Reg.BAUDCON 0b01001000, Event.reg Reg.TXSTA 0b00100100,
        Event.reg Reg.RCSTA 0b10010000] } := by
  have hge : b ≥ 9600 := hb
  simp [uart_start, hv, hge]

theorem divisor_step (b : Nat) (hlo : 16 ≤ b) (hhi : b ≤ 8191) :
    (4000000 : ℚ) / (4 * (((4000000 / (4 * b) - 1 : Nat) : ℚ) + 2)) < (b : ℚ) ∧
    (b : ℚ) ≤ 4000000 / (4 * (((4000000 / (4 * b) - 1 : Nat) : ℚ) + 1)) := by
  have hq0 : 1 ≤ 4000000 / (4 * b) := by
    apply (Nat.one_le_div_iff (by omega)).2
    omega
  have hle : 4000000 / (4 * b) * (4 * b) ≤ 4000000 := Nat.div_mul_le_self _ _
  have hlt : 4000000 < (4000000 / (4 * b) + 1) * (4 * b) := by
    have := Nat.lt_succ_iff.2 (le_refl (4000000 / (4 * b)))
    exact (Nat.div_lt_iff_lt_mul (by omega)).1 this
  generalize 4000000 / (4 * b) = q at hq0 hle hlt
  obtain ⟨d, rfl⟩ : ∃ d, q = d + 1 := ⟨q - 1, by omega⟩
  simp only [Nat.add_sub_cancel]
  have hleQ : ((d : ℚ) + 1) * (4 * (b : ℚ)) ≤ 4000000 := by exact_mod_cast hle
  have hltQ : (4000000 : ℚ) < ((d : ℚ) + 1 + 1) * (4 * (b : ℚ)) := by exact_mod_cast hlt
  have hd : (0 : ℚ) ≤ (d : ℚ) := Nat.cast_nonneg d
  constructor
  · rw [div_lt_iff₀ (by linarith)]
    nlinarith
  · rw [le_div_iff₀ (by linarith)]
    nlinarith

/-! ## Lemmas on the encoder property and on the buffer after a line -/

theorem payload_line (pre rest : List Nat) :
    (∀ j, j < ((pre ++ LF :: rest).takeWhile (fun b => b ≠ CR ∧ b ≠ LF ∧ b ≠ NUL)).length →
      (pre ++ [LF]).getD j 0
        = ((pre ++ LF :: rest).takeWhile (fun b => b ≠ CR ∧ b ≠ LF ∧ b ≠ NUL)).getD j 0) ∧
    (∀ b ∈ (pre ++ LF :: rest).takeWhile (fun b => b ≠ CR ∧ b ≠ LF ∧ b ≠ NUL),
      b ≠ CR ∧ b ≠ LF ∧ b ≠ NUL) ∧
    stored ((pre ++ [LF]).getD
      ((pre ++ LF :: rest).takeWhile (fun b => b ≠ CR ∧ b ≠ LF ∧ b ≠ NUL)).length 0) = 0 ∧
    ((pre ++ LF :: rest).takeWhile (fun b => b ≠ CR ∧ b ≠ LF ∧ b ≠ NUL)).length
      ≤ pre.length := by
  induction pre with
  | nil => simp [List.takeWhile_cons, stored, NUL]
  | cons x xs ih =>
    obtain ⟨h1, h2, h3, h4⟩ := ih
    by_cases hx : x ≠ CR ∧ x ≠ LF ∧ x ≠ NUL
    · have htw : (x :: xs ++ LF :: rest).takeWhile (fun b => b ≠ CR ∧ b ≠ LF ∧ b ≠ NUL)
          = x :: (xs ++ LF :: rest).takeWhile (fun b => b ≠ CR ∧ b ≠ LF ∧ b ≠ NUL) := by
        rw [List.cons_append, List.takeWhile_cons]
        exact if_pos (decide_eq_true hx)
      rw [htw]
      refine ⟨?_, ?_, ?_, ?_⟩
      · intro j hj
        cases j with
        | zero => simp
        | succ j =>
          have := h1 j (by simpa using hj)
          simpa using this
      · intro b hb
        rcases List.mem_cons.1 hb with h | h
        · subst h; exact hx
        · exact h2 b h
      · simpa using h3
      · simpa using h4
    · have htw : (x :: xs ++ LF :: rest).takeWhile (fun b => b ≠ CR ∧ b ≠ LF ∧ b ≠ NUL)
          = [] := by
        rw [List.cons_append, List.takeWhile_cons]
        exact if_neg (fun h => hx (of_decide_eq_true h))
      rw [htw]
      refine ⟨by simp, by simp, ?_, by simp⟩
      simp only [List.length_nil, List.cons_append, List.getD_cons_zero, stored]
      by_cases hc : x ≠ CR ∧ x ≠ LF
      · rw [if_pos hc]
        by_contra h0
        exact hx ⟨hc.1, hc.2, h0⟩
      · rw [if_neg hc]; rfl

theorem takeWhile_stop (p : Nat → Bool) (a tl : List Nat) (c : Nat) (ha : ∀ x ∈ a, p x = true)
    (hc : p c = false) : (a ++ c :: tl).takeWhile p = a := by
  induction a with
  | nil => simp [List.takeWhile_cons, hc]
  | cons x xs ih =>
    rw [List.cons_append, List.takeWhile_cons, ha x (List.mem_cons_self _ _)]
    simp only [if_true]
    rw [ih (fun y hy => ha y (List.mem_cons_of_mem _ hy))]

theorem longestPayload_eq (pre rest : List Nat) (buf : Nat → Nat)
    (hlen : pre.length < MaxStringLength) :
    stringAt (writeLine 0 (pre ++ [LF]) buf) 0 MaxStringLength
      = (pre ++ LF :: rest).takeWhile (fun b => b ≠ CR ∧ b ≠ LF ∧ b ≠ NUL) := by
  obtain ⟨h1, h2, h3, h4⟩ := payload_line pre rest
  unfold MaxStringLength at hlen ⊢
  have hcell : ∀ i, i < pre.length + 1 →
      writeLine 0 (pre ++ [LF]) buf i = stored ((pre ++ [LF]).getD i 0) := by
    intro i hi
    rw [writeLine_apply _ _ _ _ (by simp; omega), if_pos (by simp; omega)]
    simp
  apply stringAt_eq
  · intro j hj
    rw [Nat.zero_add, hcell j (by omega), h1 j hj]
    have hj' : ((pre ++ LF :: rest).takeWhile (fun b => b ≠ CR ∧ b ≠ LF ∧ b ≠ NUL)).getD j 0
        ∈ (pre ++ LF :: rest).takeWhile (fun b => b ≠ CR ∧ b ≠ LF ∧ b ≠ NUL) := by
      rw [List.getD_eq_getElem _ 0 hj]; exact List.getElem_mem hj
    obtain ⟨hcr, hlf, -⟩ := h2 _ hj'
    exact stored_of_payload _ ⟨hcr, hlf⟩
  · intro b hb
    exact (h2 b hb).2.2
  · rw [Nat.zero_add, hcell _ (by omega)]
    exact h3
  · omega

/-! ## Lemmas on the recorded accesses of `uart_printNumber` -/

theorem tagged_text_sends (tag t : List Nat) (s : Nat → Nat) (m : Machine) (fuel : Nat)
    (htag : ∀ b ∈ tag, b ≠ 0) (htl : tag.length ≤ 255)
    (hs : HoldsString s t) (hlen : t.length ≤ 255) (hfuel : 255 < fuel) :
    (do
      let m1 ← uart_printString fuel (literal tag) No_EOL m
      let m2 ← uart_printString fuel s EOL m1
      uart_receiveString m2)
      = uart_receiveString (sent m (tag ++ t ++ [CR, LF])) := by
  rw [uart_printString_eq tag (literal tag) No_EOL m fuel (holdsString_literal _ htag) htl
    (by omega)]
  simp only [Option.bind_eq_bind, Option.some_bind]
  rw [uart_printString_eq t s EOL _ fuel hs hlen (by omega)]
  simp [sent, No_EOL, EOL]

theorem bt832_setName_sends (t : List Nat) (s : Nat → Nat) (m : Machine) (fuel : Nat)
    (hs : HoldsString s t) (hlen : t.length ≤ 255) (hfuel : 255 < fuel) :
    bt832_setName fuel s m = uart_receiveString (sent m (ascii "AT+NAME=" ++ t ++ [CR, LF])) :=
  tagged_text_sends _ t s m fuel (by decide) (by decide) hs hlen hfuel

theorem bt832_advertisingInterval_sends (t : List Nat) (s : Nat → Nat) (m : Machine)
    (fuel : Nat) (hs : HoldsString s t) (hlen : t.length ≤ 255) (hfuel : 255 < fuel) :
    bt832_advertisingInterval fuel s m
      = uart_receiveString (sent m (ascii "AT+ADINTERVAL=" ++ t ++ [CR, LF])) :=
  tagged_text_sends _ t s m fuel (by decide) (by decide) hs hlen hfuel

theorem bt832_sleep_sends (t : List Nat) (s : Nat → Nat) (m : Machine) (fuel : Nat)
    (hs : HoldsString s t) (hlen : t.length ≤ 255) (hfuel : 255 < fuel) :
    bt832_sleep fuel s m = uart_receiveString (sent m (ascii "AT+STOP=" ++ t ++ [CR, LF])) :=
  tagged_text_sends _ t s m fuel (by decide) (by decide) hs hlen hfuel

theorem bt832_command_sends (t : List Nat) (s : Nat → Nat) (m : Machine) (fuel : Nat)
    (hs : HoldsString s t) (hlen : t.length ≤ 255) (hfuel : 255 < fuel) :
    bt832_command fuel s m = uart_receiveString (sent m (t ++ [CR, LF])) := by
  unfold bt832_command
  rw [uart_printString_eq t s EOL _ fuel hs hlen (by omega)]
  simp [sent, EOL]

theorem bt832_save_sends (m : Machine) (fuel : Nat) (hfuel : 255 < fuel) :
    bt832_save fuel m = uart_receiveString (sent m (ascii "AT+SAVE=1" ++ [CR, LF])) := by
  unfold bt832_save
  rw [uart_printString_eq (ascii "AT+SAVE=1") _ EOL m fuel (holdsString_literal _ (by decide))
    (by decide) (by have : (ascii "AT+SAVE=1").length = 9 := by decide
                    omega)]
  simp [sent, EOL]

/-- A call that is one `uart_receiveString` after the request `req`: when it
returns the bytes transmitted are those of `req`, and it returns when the
response holds an LF. -/
theorem request_then_receive (run : Option Machine) (m : Machine) (req : List Nat)
    (h : run = uart_receiveString (sent m req)) :
    (∀ m', run = some m' → transmitted m'.trace = transmitted m.trace ++ req) ∧
    (LF ∈ m.rx → ∃ m', run = some m') := by
  constructor
  · intro m' hm
    rw [h] at hm
    exact transmitted_after_sent m m' req hm
  · intro hrx
    rw [h]
    exact uart_receiveString_returns _ hrx

/-! ## Lemmas on the receive loop within the bounds of the array -/

/-- C1: for a payload `p` without CR, LF or NUL bytes, `uart_receiveString` fed
`p ++ [CR, LF]` (with `|p| <= 8`) and likewise fed `p ++ [LF]` (with
`|p| <= 9`) returns, leaves `receiverString[0..|p|-1]` equal to `p` and
`receiverString[|p|]` equal to NUL, so the stored null-terminated line is
exactly `p`; neither the CR nor the LF byte is stored. -/
theorem uart_receiveString_payload (p rest : List Nat) (m : Machine)
    (hp : ∀ b ∈ p, b ≠ CR ∧ b ≠ LF ∧ b ≠ NUL) :
    (p.length ≤ 8 →
      ∃ m', uart_receiveString { m with rx := p ++ CR :: LF :: rest } = some m' ∧
        (∀ i, i < p.length → m'.receiverString i = p.getD i 0) ∧
        m'.receiverString p.length = NUL ∧
        stringAt m'.receiverString 0 MaxStringLength = p ∧ m'.rx = rest) ∧
    (p.length ≤ 9 →
      ∃ m', uart_receiveString { m with rx := p ++ LF :: rest } = some m' ∧
        (∀ i, i < p.length → m'.receiverString i = p.getD i 0) ∧
        m'.receiverString p.length = NUL ∧
        stringAt m'.receiverString 0 MaxStringLength = p ∧ m'.rx = rest) := by
  have hnz : ∀ b ∈ p, b ≠ 0 := fun b hb => (hp b hb).2.2
  have hsto : ∀ i, i < p.length → stored (p.getD i 0) = p.getD i 0 := by
    intro i hi
    have hmem : p.getD i 0 ∈ p := by
      rw [List.getD_eq_getElem p 0 hi]; exact List.getElem_mem hi
    exact stored_of_payload _ ⟨(hp _ hmem).1, (hp _ hmem).2.1⟩
  constructor
  · intro hlen
    have hpre : ∀ b ∈ p ++ [CR], b ≠ LF := by
      intro b hb
      rcases List.mem_append.1 hb with h | h
      · exact (hp b h).2.1
      · simp at h; subst h; decide
    have hrun := uart_receiveString_line (p ++ [CR]) rest hpre
      { m with rx := p ++ CR :: LF :: rest } (by simp)
    refine ⟨_, hrun, ?_⟩
    have hcell : ∀ i, i < p.length →
        writeLine 0 (p ++ [CR] ++ [LF]) m.receiverString i = p.getD i 0 := by
      intro i hi
      rw [writeLine_apply _ _ _ _ (by simp; omega), if_pos (by simp; omega)]
      simp only [Nat.sub_zero, List.append_assoc]
      rw [List.getD_append _ _ _ _ hi]
      exact hsto i hi
    have hend : writeLine 0 (p ++ [CR] ++ [LF]) m.receiverString p.length = 0 := by
      rw [writeLine_apply _ _ _ _ (by simp; omega), if_pos (by simp)]
      simp only [Nat.sub_zero, List.append_assoc]
      rw [List.getD_append_right _ _ _ _ (le_refl _)]
      simp [stored, CR, NUL]
    refine ⟨hcell, hend, ?_, rfl⟩
    apply stringAt_eq
    · intro j hj; simpa using hcell j hj
    · exact hnz
    · simpa using hend
    · simp [MaxStringLength]; omega
  · intro hlen
    have hpre : ∀ b ∈ p, b ≠ LF := fun b hb => (hp b hb).2.1
    have hrun := uart_receiveString_line p rest hpre
      { m with rx := p ++ LF :: rest } rfl
    refine ⟨_, hrun, ?_⟩
    have hcell : ∀ i, i < p.length →
        writeLine 0 (p ++ [LF]) m.receiverString i = p.getD i 0 := by
      intro i hi
      rw [writeLine_apply _ _ _ _ (by simp; omega), if_pos (by simp; omega)]
      simp only [Nat.sub_zero]
      rw [List.getD_append _ _ _ _ hi]
      exact hsto i hi
    have hend : writeLine 0 (p ++ [LF]) m.receiverString p.length = 0 := by
      rw [writeLine_apply _ _ _ _ (by simp; omega), if_pos (by simp)]
      simp only [Nat.sub_zero]
      rw [List.getD_append_right _ _ _ _ (le_refl _)]
      simp [stored, LF, NUL]
    refine ⟨hcell, hend, ?_, rfl⟩
    apply stringAt_eq
    · intro j hj; simpa using hcell j hj
    · exact hnz
    · simpa using hend
    · simp [MaxStringLength]; omega

/-- Witness of C1 at the payload "OK": the streams "OK\r\n" and "OK\n" both
leave the line "OK". -/
theorem uart_receiveString_payload_witness :
    (∃ m', uart_receiveString ⟨[79, 75, 13, 10], fun _ => 255, 1, []⟩ = some m' ∧
      stringAt m'.receiverString 0 MaxStringLength = [79, 75]) ∧
    (∃ m', uart_receiveString ⟨[79, 75, 10], fun _ => 255, 1, []⟩ = some m' ∧
      stringAt m'.receiverString 0 MaxStringLength = [79, 75]) := by
  have h := uart_receiveString_payload [79, 75] [] ⟨[], fun _ => 255, 1, []⟩ (by decide)
  obtain ⟨m1, h1, _, _, h1s, _⟩ := h.1 (by decide)
  obtain ⟨m2, h2, _, _, h2s, _⟩ := h.2 (by decide)
  exact ⟨⟨m1, h1, h1s⟩, ⟨m2, h2, h2s⟩⟩

/-- C4: for a null-terminated text `t` of length at most 255 and a flag `e`,
`uart_printString` returns and the bytes it writes to the transmitter are
exactly the bytes of `t` in order, followed by CR then LF when `e` is true and
by nothing when `e` is false; no NUL is transmitted and nothing else
changes. -/
theorem uart_printString_bytes (t : List Nat) (s : Nat → Nat) (e : Bool) (m : Machine)
    (fuel : Nat) (hs : HoldsString s t) (hlen : t.length ≤ 255) (hfuel : t.length < fuel) :
    ∃ m', uart_printString fuel s e m = some m' ∧
      m'.trace = m.trace ++ (t ++ if e then [CR, LF] else []).map Event.tx ∧
      transmitted m'.trace = transmitted m.trace ++ (t ++ if e then [CR, LF] else []) ∧
      NUL ∉ (t ++ if e then [CR, LF] else []) ∧
      m'.rx = m.rx ∧ m'.receiverString = m.receiverString ∧ m'.wakeUpPin = m.wakeUpPin := by
  refine ⟨_, uart_printString_eq t s e m fuel hs hlen hfuel, rfl, ?_, ?_, rfl, rfl, rfl⟩
  · simp only [transmitted_append, transmitted_map_tx]
  · intro hmem
    rcases List.mem_append.1 hmem with h | h
    · exact hs.2.1 _ h rfl
    · cases e <;> simp [NUL, CR, LF] at h

/-- Witness of C4 at the text "Hi" with the end-of-line flag set. -/
theorem uart_printString_bytes_witness :
    ∃ m', uart_printString 3 (literal [72, 105]) true ⟨[], fun _ => 0, 1, []⟩ = some m' ∧
      transmitted m'.trace = [72, 105, 13, 10] := by
  obtain ⟨m', h, _, ht, _⟩ := uart_printString_bytes [72, 105] (literal [72, 105]) true
    ⟨[], fun _ => 0, 1, []⟩ 3 (holdsString_literal _ (by decide)) (by decide) (by decide)
  exact ⟨m', h, by simpa [transmitted, CR, LF] using ht⟩

/-- C2: for every `int` value `z` with `0 <= z <= INT_MAX` and every flag `e`,
`uart_printNumber` returns and the bytes it writes to the transmitter are the
decimal ASCII representation of `z` (digits '0'..'9' whose value is `z`, most
significant first, no leading zero, the single byte '0' for zero), followed by
CR then LF exactly when `e` is true; no NUL byte is transmitted. -/
theorem uart_printNumber_decimal (z : Int) (e : Bool) (buf : Nat → Nat) (m : Machine)
    (fuel : Nat) (h0 : 0 ≤ z) (hmax : z ≤ INT_MAX) (hfuel : 8 < fuel) :
    ∃ m', uart_printNumber fuel buf z e m = some m' ∧
      transmitted m'.trace
        = transmitted m.trace ++ (decimalAscii z.toNat ++ if e then [CR, LF] else []) ∧
      m'.trace = m.trace ++ (decimalAscii z.toNat ++ lineEnding e).map Event.tx ∧
      NUL ∉ decimalAscii z.toNat ++ lineEnding e ∧
      (∀ c ∈ decimalAscii z.toNat, 48 ≤ c ∧ c ≤ 57) ∧
      Nat.ofDigits 10 (((decimalAscii z.toNat).map (fun c => c - 48)).reverse) = z.toNat ∧
      (z ≠ 0 → (decimalAscii z.toNat).head? ≠ some 48) ∧
      (z = 0 → decimalAscii z.toNat = [48]) := by
  obtain ⟨n, rfl⟩ := Int.eq_ofNat_of_zero_le h0
  have hn : n ≤ 32767 := by unfold INT_MAX at hmax; omega
  have hlen := digits_length_le_five n hn
  have hrun := uart_printNumber_eq n e buf m fuel (by omega) (by omega)
  refine ⟨_, hrun, ?_, rfl, ?_, ?_, ?_, ?_, ?_⟩
  · simp only [transmitted_append, transmitted_map_tx, lineEnding, Int.toNat_ofNat]
  · intro hmem
    rcases List.mem_append.1 hmem with h | h
    · have := decimalAscii_range _ _ h
      simp [NUL] at this
    · cases e <;> simp [lineEnding, NUL, CR, LF] at h
  · exact decimalAscii_range _
  · simp only [Int.toNat_ofNat, decimalAscii_value]
  · intro hz
    exact decimalAscii_head _ (by simpa using hz)
  · intro hz
    have : n = 0 := by simpa using hz
    subst this
    simp [decimalAscii]

/-- Witness of C2: `(0, false)` gives "0" and `(123, true)` gives "123\r\n". -/
theorem uart_printNumber_decimal_witness :
    (∃ m', uart_printNumber 9 (fun _ => 255) 0 false ⟨[], fun _ => 0, 1, []⟩ = some m' ∧
      transmitted m'.trace = [48]) ∧
    (∃ m', uart_printNumber 9 (fun _ => 255) 123 true ⟨[], fun _ => 0, 1, []⟩ = some m' ∧
      transmitted m'.trace = [49, 50, 51, 13, 10]) := by
  obtain ⟨m1, h1, t1, _⟩ := uart_printNumber_decimal 0 false (fun _ => 255)
    ⟨[], fun _ => 0, 1, []⟩ 9 (by decide) (by decide) (by decide)
  obtain ⟨m2, h2, t2, _⟩ := uart_printNumber_decimal 123 true (fun _ => 255)
    ⟨[], fun _ => 0, 1, []⟩ 9 (by decide) (by decide) (by decide)
  have e0 : Int.toNat 0 = 0 := rfl
  have e123 : Int.toNat 123 = 123 := rfl
  rw [e0] at t1
  rw [e123] at t2
  refine ⟨⟨m1, h1, ?_⟩, ⟨m2, h2, ?_⟩⟩
  · rw [t1]; simp [transmitted, decimalAscii]
  · rw [t2]; norm_num [transmitted, decimalAscii, CR, LF]

/-- C3: for null-terminated strings `a` and `b` of length at most 255,
`compareString` returns, and it returns true if and only if `a` and `b` have
the same length and identical bytes at every position; it returns false when
one string is a proper prefix of the other. -/
theorem compareString_iff (a b : List Nat) (ra rb : Nat → Nat) (fuel : Nat)
    (ha : HoldsString ra a) (hb : HoldsString rb b) (hla : a.length ≤ 255)
    (hlb : b.length ≤ 255) (hfuel : 255 < fuel) :
    ∃ r, compareString fuel ra rb = some r ∧
      (r = true ↔ (a.length = b.length ∧ ∀ i, i < a.length → a.getD i 0 = b.getD i 0)) ∧
      (r = true ↔ a = b) ∧
      (a ≠ b → (a <+: b ∨ b <+: a) → r = false) := by
  refine ⟨decide (a = b), compareString_eq a b ra rb fuel ha hb hla (by omega), ?_, by simp, ?_⟩
  · simp only [decide_eq_true_eq]
    constructor
    · rintro rfl; exact ⟨rfl, fun _ _ => rfl⟩
    · rintro ⟨hlen, hget⟩
      apply List.ext_getElem hlen
      intro i h1 h2
      have := hget i h1
      rwa [List.getD_eq_getElem _ _ h1, List.getD_eq_getElem _ _ h2] at this
  · intro hne _
    simpa using hne

/-- Witness of C3: ("ABC","ABC") is true, ("ABC","AB") and ("ABC","ABD") are
false. -/
theorem compareString_iff_witness :
    compareString 256 (literal [65, 66, 67]) (literal [65, 66, 67]) = some true ∧
    compareString 256 (literal [65, 66, 67]) (literal [65, 66]) = some false ∧
    compareString 256 (literal [65, 66, 67]) (literal [65, 66, 68]) = some false := by
  obtain ⟨r1, h1, _, e1, _⟩ := compareString_iff [65, 66, 67] [65, 66, 67] _ _ 256
    (holdsString_literal _ (by decide)) (holdsString_literal _ (by decide))
    (by decide) (by decide) (by decide)
  obtain ⟨r2, h2, _, e2, _⟩ := compareString_iff [65, 66, 67] [65, 66] _ _ 256
    (holdsString_literal _ (by decide)) (holdsString_literal _ (by decide))
    (by decide) (by decide) (by decide)
  obtain ⟨r3, h3, _, e3, _⟩ := compareString_iff [65, 66, 67] [65, 66, 68] _ _ 256
    (holdsString_literal _ (by decide)) (holdsString_literal _ (by decide))
    (by decide) (by decide) (by decide)
  have t1 : r1 = true := e1.2 rfl
  have t2 : r2 = false := by
    cases r2 with
    | false => rfl
    | true => exact absurd (e2.1 rfl) (by decide)
  have t3 : r3 = false := by
    cases r3 with
    | false => rfl
    | true => exact absurd (e3.1 rfl) (by decide)
  rw [t1] at h1; rw [t2] at h2; rw [t3] at h3
  exact ⟨h1, h2, h3⟩

/-- C5: `bt832_advertisingStart` transmits exactly the ASCII bytes of
"AT+ADSTART=" followed immediately by the raw bytes 5, 255, 1, 1, 255, 50 in
that order and nothing else: the call is one `uart_receiveString` on the
machine that has sent these bytes, the bytes transmitted when it returns are
these and no others (no CR or LF between the tag and the first raw byte or
after the last one), and it returns when the response contains an LF. -/
theorem bt832_advertisingStart_bytes (m : Machine) (fuel : Nat) (hfuel : 255 < fuel) :
    bt832_advertisingStart fuel m
      = uart_receiveString (sent m (ascii "AT+ADSTART=" ++ [5, 255, 1, 1, 255, 50])) ∧
    (∀ m', bt832_advertisingStart fuel m = some m' →
      transmitted m'.trace
        = transmitted m.trace ++ (ascii "AT+ADSTART=" ++ [5, 255, 1, 1, 255, 50])) ∧
    (LF ∈ m.rx → ∃ m', bt832_advertisingStart fuel m = some m') ∧
    ascii "AT+ADSTART=" ++ [5, 255, 1, 1, 255, 50]
      = [65, 84, 43, 65, 68, 83, 84, 65, 82, 84, 61, 5, 255, 1, 1, 255, 50] := by
  have hs := bt832_advertisingStart_sends m fuel hfuel
  refine ⟨hs, ?_, ?_, by decide⟩
  · intro m' h
    rw [hs] at h
    exact transmitted_after_sent m m' _ h
  · intro hrx
    rw [hs]
    exact uart_receiveString_returns _ hrx

/-- Witness of C5 with the response "OK\r\n". -/
theorem bt832_advertisingStart_bytes_witness :
    ∃ m', bt832_advertisingStart 256 ⟨[79, 75, 13, 10], fun _ => 0, 1, []⟩ = some m' ∧
      transmitted m'.trace
        = [65, 84, 43, 65, 68, 83, 84, 65, 82, 84, 61, 5, 255, 1, 1, 255, 50] := by
  obtain ⟨_, ht, hr, hb⟩ := bt832_advertisingStart_bytes ⟨[79, 75, 13, 10], fun _ => 0, 1, []⟩
    256 (by decide)
  obtain ⟨m', h⟩ := hr (by decide)
  exact ⟨m', h, by rw [ht m' h, hb]; rfl⟩

/-- C6: for every flag `f`, `bt832_send f` transmits exactly the ASCII bytes
of "AT+ADVMANU=" followed by the three raw bytes 2, (0 if `f` is true, 1 if `f`
is false), 0, with no line ending: the call is one `uart_receiveString` on the
machine that has sent these bytes, and the bytes transmitted when it returns
are these and no others. -/
theorem bt832_send_bytes (f : Bool) (m : Machine) (fuel : Nat) (hfuel : 255 < fuel) :
    bt832_send fuel f m
      = uart_receiveString (sent m (ascii "AT+ADVMANU=" ++ [2, if f then 0 else 1, 0])) ∧
    (∀ m', bt832_send fuel f m = some m' →
      transmitted m'.trace
        = transmitted m.trace ++ (ascii "AT+ADVMANU=" ++ [2, if f then 0 else 1, 0])) ∧
    (LF ∈ m.rx → ∃ m', bt832_send fuel f m = some m') ∧
    ascii "AT+ADVMANU=" = [65, 84, 43, 65, 68, 86, 77, 65, 78, 85, 61] := by
  have hs := bt832_send_sends f m fuel hfuel
  refine ⟨hs, ?_, ?_, by decide⟩
  · intro m' h
    rw [hs] at h
    exact transmitted_after_sent m m' _ h
  · intro hrx
    rw [hs]
    exact uart_receiveString_returns _ hrx

/-- Witness of C6: a true flag sends 2, 0, 0 and a false flag sends 2, 1, 0
after the tag. -/
theorem bt832_send_bytes_witness :
    (∃ m', bt832_send 256 true ⟨[79, 75, 13, 10], fun _ => 0, 1, []⟩ = some m' ∧
      transmitted m'.trace = [65, 84, 43, 65, 68, 86, 77, 65, 78, 85, 61, 2, 0, 0]) ∧
    (∃ m', bt832_send 256 false ⟨[79, 75, 13, 10], fun _ => 0, 1, []⟩ = some m' ∧
      transmitted m'.trace = [65, 84, 43, 65, 68, 86, 77, 65, 78, 85, 61, 2, 1, 0]) := by
  obtain ⟨_, t1, r1, hb⟩ := bt832_send_bytes true ⟨[79, 75, 13, 10], fun _ => 0, 1, []⟩
    256 (by decide)
  obtain ⟨_, t2, r2, _⟩ := bt832_send_bytes false ⟨[79, 75, 13, 10], fun _ => 0, 1, []⟩
    256 (by decide)
  obtain ⟨m1, h1⟩ := r1 (by decide)
  obtain ⟨m2, h2⟩ := r2 (by decide)
  exact ⟨⟨m1, h1, by rw [t1 m1 h1, hb]; rfl⟩, ⟨m2, h2, by rw [t2 m2 h2, hb]; rfl⟩⟩

/-- C7, counterexample: the argument of `bt832_command` is a null-terminated
string of 256 characters 'A'.  The 8-bit index of `uart_printString` wraps
from 255 to 0 and never reaches the terminator at offset 256: whatever the
fuel, the call does not return, so the request is not the text followed by CR
and LF. -/
theorem bt832_command_long_argument :
    HoldsString (fun i => if i = 256 then 0 else 65) (List.replicate 256 65) ∧
    (List.replicate 256 65).length = 256 ∧
    ∀ fuel, bt832_command fuel (fun i => if i = 256 then 0 else 65)
      ⟨[79, 75, 13, 10], fun _ => 0, 1, []⟩ = none := by
  refine ⟨replicate_holds 256, List.length_replicate _ _, ?_⟩
  intro fuel
  simp [bt832_command, uart_printString_diverges _ longString_nonzero]

/-- C7, amended: for every null-terminated argument `s` of length at most
255 (holding the text `t`) and every machine, the request bytes of the text
commands are tag ++ t ++ [CR, LF]: `bt832_setName` sends
"AT+NAME=" ++ t ++ "\r\n", `bt832_advertisingInterval` sends
"AT+ADINTERVAL=" ++ t ++ "\r\n", `bt832_sleep` sends "AT+STOP=" ++ t ++ "\r\n",
`bt832_save` sends "AT+SAVE=1\r\n" and `bt832_command` sends t ++ "\r\n".  Each
call is one `uart_receiveString` on the machine that has sent exactly these
bytes; they are the only bytes transmitted when the call returns, and it
returns when the response holds an LF.  The mode constants UARTOn, AllOff,
AdvOn are the distinct one-character strings "1", "2", "3". -/
theorem bt832_text_requests (t : List Nat) (s : Nat → Nat) (m : Machine) (fuel : Nat)
    (hs : HoldsString s t) (hlen : t.length ≤ 255) (hfuel : 255 < fuel) :
    (bt832_setName fuel s m
        = uart_receiveString (sent m (ascii "AT+NAME=" ++ t ++ [CR, LF])) ∧
      (∀ m', bt832_setName fuel s m = some m' →
        transmitted m'.trace = transmitted m.trace ++ (ascii "AT+NAME=" ++ t ++ [CR, LF])) ∧
      (LF ∈ m.rx → ∃ m', bt832_setName fuel s m = some m')) ∧
    (bt832_advertisingInterval fuel s m
        = uart_receiveString (sent m (ascii "AT+ADINTERVAL=" ++ t ++ [CR, LF])) ∧
      (∀ m', bt832_advertisingInterval fuel s m = some m' →
        transmitted m'.trace
          = transmitted m.trace ++ (ascii "AT+ADINTERVAL=" ++ t ++ [CR, LF])) ∧
      (LF ∈ m.rx → ∃ m', bt832_advertisingInterval fuel s m = some m')) ∧
    (bt832_sleep fuel s m
        = uart_receiveString (sent m (ascii "AT+STOP=" ++ t ++ [CR, LF])) ∧
      (∀ m', bt832_sleep fuel s m = some m' →
        transmitted m'.trace = transmitted m.trace ++ (ascii "AT+STOP=" ++ t ++ [CR, LF])) ∧
      (LF ∈ m.rx → ∃ m', bt832_sleep fuel s m = some m')) ∧
    (bt832_save fuel m = uart_receiveString (sent m (ascii "AT+SAVE=1" ++ [CR, LF])) ∧
      (∀ m', bt832_save fuel m = some m' →
        transmitted m'.trace = transmitted m.trace ++ (ascii "AT+SAVE=1" ++ [CR, LF])) ∧
      (LF ∈ m.rx → ∃ m', bt832_save fuel m = some m')) ∧
    (bt832_command fuel s m = uart_receiveString (sent m (t ++ [CR, LF])) ∧
      (∀ m', bt832_command fuel s m = some m' →
        transmitted m'.trace = transmitted m.trace ++ (t ++ [CR, LF])) ∧
      (LF ∈ m.rx → ∃ m', bt832_command fuel s m = some m')) ∧
    (UARTOn = ascii "1" ∧ AllOff = ascii "2" ∧ AdvOn = ascii "3") ∧
    (UARTOn ≠ AllOff ∧ UARTOn ≠ AdvOn ∧ AllOff ≠ AdvOn) := by
  have h1 := bt832_setName_sends t s m fuel hs hlen hfuel
  have h2 := bt832_advertisingInterval_sends t s m fuel hs hlen hfuel
  have h3 := bt832_sleep_sends t s m fuel hs hlen hfuel
  have h4 := bt832_save_sends m fuel hfuel
  have h5 := bt832_command_sends t s m fuel hs hlen hfuel
  exact ⟨⟨h1, request_then_receive _ m _ h1⟩, ⟨h2, request_then_receive _ m _ h2⟩,
    ⟨h3, request_then_receive _ m _ h3⟩, ⟨h4, request_then_receive _ m _ h4⟩,
    ⟨h5, request_then_receive _ m _ h5⟩, by decide, by decide⟩

/-- Witness of the amended C7: the sleep command with the configuration
`AllOff` sends "AT+STOP=2\r\n". -/
theorem bt832_text_requests_witness :
    ∃ m', bt832_sleep 256 (literal AllOff) ⟨[79, 75, 13, 10], fun _ => 0, 1, []⟩ = some m' ∧
      transmitted m'.trace = [65, 84, 43, 83, 84, 79, 80, 61, 50, 13, 10] := by
  obtain ⟨_, _, ⟨_, ht, hr⟩, _⟩ := bt832_text_requests AllOff (literal AllOff)
    ⟨[79, 75, 13, 10], fun _ => 0, 1, []⟩ 256 (holdsString_literal _ (by decide))
    (by decide) (by decide)
  obtain ⟨m', h⟩ := hr (by decide)
  exact ⟨m', h, by rw [ht m' h]; decide⟩

/-- C9, counterexample: at the supported rate 2400 the code computes the
divisor 415, while `round(4000000 / (4 * 2400)) - 1` is 416: the quotient
416.67 is truncated, not rounded. -/
theorem SPBRGValue_not_rounded :
    (1 ≤ 2400 ∧ 4 * 2400 ≤ 4000000) ∧ SPBRGValue 2400 = some 415 ∧
      roundedDivisor 2400 = 416 ∧ SPBRGValue 2400 ≠ some (roundedDivisor 2400).toNat := by
  have hr : roundedDivisor 2400 = 416 := by
    unfold roundedDivisor _XTAL_FREQ
    rw [round_eq]
    have : ⌊(((4000000 : Int) : ℚ)) / (4 * ((2400 : Nat) : ℚ)) + 1 / 2⌋ = 417 := by
      rw [Int.floor_eq_iff]; norm_num
    rw [this]; rfl
  have hc : SPBRGValue 2400 = some 415 := by decide
  refine ⟨by decide, hc, hr, ?_⟩
  rw [hc, hr]
  decide

/-- C9, amended: for every baud rate `b` with `16 <= b <= 8191` (the product
`4 * b` fits the 16-bit `int` and the result fits the 16-bit `unsigned int`)
the value `SPBRGValue` computed by `uart_start` is
`floor(4000000 / (4 * b)) - 1`: the quotient is truncated. -/
theorem SPBRGValue_truncated (b : Nat) (hlo : 16 ≤ b) (hhi : b ≤ 8191) :
    SPBRGValue (b : Int) = some (4000000 / (4 * b) - 1) ∧
      4000000 / (4 * b) = ⌊(4000000 : ℚ) / ((4 * b : Nat) : ℚ)⌋₊ := by
  refine ⟨SPBRGValue_nat b hlo hhi, ?_⟩
  have := @Nat.floor_div_eq_div ℚ _ _ 4000000 (4 * b)
  rw [← this]
  norm_num

/-- Witness of the amended C9: 2400 gives 415 and 1200 gives 832. -/
theorem SPBRGValue_truncated_witness :
    SPBRGValue (2400 : Nat) = some 415 ∧ SPBRGValue (1200 : Nat) = some 832 :=
  ⟨(SPBRGValue_truncated 2400 (by decide) (by decide)).1,
    (SPBRGValue_truncated 1200 (by decide) (by decide)).1⟩

/-- C10, counterexample: for the stream "A\rB\n" (no NUL byte, first LF at
index 3) the stored null-terminated string is "A", while the bytes received
before the LF with every CR removed are "AB": the CR is replaced by a
terminator in its own slot and ends the stored line. -/
theorem uart_receiveString_embedded_CR :
    (∀ b ∈ [65, 13, 66, 10], b ≠ NUL) ∧
    Option.map (fun m : Machine => stringAt m.receiverString 0 MaxStringLength)
      (uart_receiveString ⟨[65, 13, 66, 10], fun _ => 0, 1, []⟩) = some [65] ∧
    [65, 13, 66].filter (fun b => b ≠ CR) = [65, 66] ∧
    Option.map (fun m : Machine => List.map m.receiverString [0, 1, 2, 3])
      (uart_receiveString ⟨[65, 13, 66, 10], fun _ => 0, 1, []⟩) = some [65, 0, 66, 0] := by
  decide

/-- C10, amended: for every incoming stream whose bytes before the first LF
contain no NUL and whose first LF is at index less than 10,
`uart_receiveString` returns and the null-terminated string held in
`receiverString` is the sequence of bytes received before the first CR or LF;
it is the sequence of all bytes before the LF with every CR removed whenever
only CR bytes stand between the first CR and the LF. -/
theorem uart_receiveString_stored (pre rest : List Nat) (m : Machine)
    (hpre : ∀ b ∈ pre, b ≠ LF) (hnul : ∀ b ∈ pre, b ≠ NUL)
    (hlen : pre.length < MaxStringLength) (hrx : m.rx = pre ++ LF :: rest) :
    ∃ m', uart_receiveString m = some m' ∧
      stringAt m'.receiverString 0 MaxStringLength = pre.takeWhile (fun b => b ≠ CR) ∧
      ((∀ b ∈ pre.dropWhile (fun b => b ≠ CR), b = CR) →
        stringAt m'.receiverString 0 MaxStringLength = pre.filter (fun b => b ≠ CR)) := by
  refine ⟨_, uart_receiveString_line pre rest hpre m hrx, ?_, ?_⟩
  · exact storedLine_eq pre m.receiverString hpre hnul hlen
  · intro hcr
    rw [filter_eq_takeWhile pre hcr]
    exact storedLine_eq pre m.receiverString hpre hnul hlen

/-- Witness of the amended C10 at the stream "OK\r\n". -/
theorem uart_receiveString_stored_witness :
    ∃ m', uart_receiveString ⟨[79, 75, 13, 10], fun _ => 255, 1, []⟩ = some m' ∧
      stringAt m'.receiverString 0 MaxStringLength = [79, 75] := by
  obtain ⟨m', h, hs, _⟩ := uart_receiveString_stored [79, 75, 13] []
    ⟨[79, 75, 13, 10], fun _ => 255, 1, []⟩ (by decide) (by decide) (by decide) rfl
  exact ⟨m', h, by rw [hs]; decide⟩

/-- C13, the code at the rate 9600 that `main` passes: the 16-bit product
`4 * 9600` overflows to -27136, the computed divisor is 65388 and not a value
of at most 103, and it is written with the single assignment to `SPBRG`; its
low byte is 108. -/
theorem uart_start_9600_overflow (m : Machine) :
    wrap16 (4 * 9600) = -27136 ∧ SPBRGValue 9600 = some 65388 ∧
    uart_start 9600 m = some { m with trace := m.trace ++
      [Event.reg Reg.TRISA4 0, Event.reg Reg.TRISA5 1, Event.reg Reg.SPBRG 65388,
        Event.reg Reg.BAUDCON 0b01001000, Event.reg Reg.TXSTA 0b00100100,
        Event.reg Reg.RCSTA 0b10010000] } ∧
    ¬ (65388 ≤ 103) ∧ 65388 % 256 = 108 := by
  have hv : SPBRGValue 9600 = some 65388 := by decide
  exact ⟨by decide, hv, uart_start_from_threshold 9600 65388 m (by decide) hv, by decide,
    by decide⟩

/-- C14, counterexample: at the rate 15 the divisor 66665 does not fit the
16-bit `SPBRGValue`, the computed value is 1129 and `4000000/(4*(d+2))` is
about 884, not below 15; at the rate 9600 the computed value is 65388, the
achieved rate is about 15.3 and the relative error is far above 0.2
percent. -/
theorem uart_start_rate_outside_step :
    (SPBRGValue 15 = some 1129 ∧ ¬ ((4000000 : ℚ) / (4 * (1129 + 2)) < 15)) ∧
    (SPBRGValue 9600 = some 65388 ∧ ¬ ((9600 : ℚ) ≤ 4000000 / (4 * (65388 + 1))) ∧
      ¬ (|(4000000 : ℚ) / (4 * (65388 + 1)) - 9600| / 9600 < 2 / 1000)) := by
  refine ⟨⟨by decide, by norm_num⟩, ⟨by decide, by norm_num, ?_⟩⟩
  have h : (4000000 : ℚ) / (4 * (65388 + 1)) - 9600 < 0 := by norm_num
  rw [abs_of_neg h]
  norm_num

/-- C14, amended: for every baud rate `b` with `16 <= b <= 8191` the divisor
`d` computed by `uart_start` satisfies
`4000000/(4*(d+2)) < b <= 4000000/(4*(d+1))` in exact rational arithmetic: the
requested rate is within one divisor step of the achieved rate. -/
theorem uart_start_rate_within_step (b : Nat) (m : Machine) (hlo : 16 ≤ b) (hhi : b ≤ 8191) :
    ∃ d m', SPBRGValue (b : Int) = some d ∧ uart_start (b : Int) m = some m' ∧
      m'.trace = m.trace ++
        [Event.reg Reg.TRISA4 0, Event.reg Reg.TRISA5 1,
          Event.reg Reg.SPBRGH ((d >>> 8) &&& 0xFF), Event.reg Reg.SPBRGL (d &&& 0xFF),
          Event.reg Reg.BAUDCON 0b01001000, Event.reg Reg.TXSTA 0b00100100,
          Event.reg Reg.RCSTA 0b10010000] ∧
      ((d >>> 8) &&& 0xFF) * 256 + (d &&& 0xFF) = d ∧
      (4000000 : ℚ) / (4 * ((d : ℚ) + 2)) < (b : ℚ) ∧
      (b : ℚ) ≤ 4000000 / (4 * ((d : ℚ) + 1)) := by
  have hv := SPBRGValue_nat b hlo hhi
  obtain ⟨hrun, hbytes⟩ := uart_start_below_threshold (b : Int) _ m (by omega) hv
  obtain ⟨h1, h2⟩ := divisor_step b hlo hhi
  exact ⟨_, _, hv, hrun, rfl, hbytes, h1, h2⟩

/-- Witness of the amended C14 at the rate 2400, whose divisor is 415. -/
theorem uart_start_rate_within_step_witness :
    ∃ d, SPBRGValue (2400 : Nat) = some d ∧ (4000000 : ℚ) / (4 * ((d : ℚ) + 2)) < 2400 ∧
      (2400 : ℚ) ≤ 4000000 / (4 * ((d : ℚ) + 1)) := by
  obtain ⟨d, _, hd, _, _, _, h1, h2⟩ :=
    uart_start_rate_within_step 2400 ⟨[], fun _ => 0, 1, []⟩ (by decide) (by decide)
  exact ⟨d, hd, by simpa using h1, by simpa using h2⟩

/-- C18: for every incoming stream whose first LF is at index `L <= 9` and
every prior buffer content, after `uart_receiveString` each slot `k <= L` of
`receiverString` holds the k-th received byte if that byte is neither CR nor
LF and NUL otherwise, and every slot with an index greater than `L` is
unchanged. -/
theorem uart_receiveString_frame (pre rest : List Nat) (m : Machine)
    (hpre : ∀ b ∈ pre, b ≠ LF) (hlen : pre.length ≤ 9) (hrx : m.rx = pre ++ LF :: rest) :
    ∃ m', uart_receiveString m = some m' ∧
      (∀ k, k ≤ pre.length →
        m'.receiverString k
          = if m.rx.getD k 0 ≠ CR ∧ m.rx.getD k 0 ≠ LF then m.rx.getD k 0 else NUL) ∧
      (∀ k, pre.length < k → m'.receiverString k = m.receiverString k) := by
  refine ⟨_, uart_receiveString_line pre rest hpre m hrx, ?_, ?_⟩
  · intro k hk
    show writeLine 0 (pre ++ [LF]) m.receiverString k = _
    rw [writeLine_apply _ _ _ _ (by simp; omega), if_pos (by simp; omega)]
    have hget : (pre ++ [LF]).getD (k - 0) 0 = m.rx.getD k 0 := by
      rw [hrx, Nat.sub_zero]
      by_cases hk' : k < pre.length
      · rw [List.getD_append _ _ _ _ hk', List.getD_append _ _ _ _ hk']
      · have : k = pre.length := by omega
        subst this
        rw [List.getD_append_right _ _ _ _ (le_refl _),
          List.getD_append_right _ _ _ _ (le_refl _)]
        simp
    rw [hget]
    rfl
  · intro k hk
    show writeLine 0 (pre ++ [LF]) m.receiverString k = _
    rw [writeLine_apply _ _ _ _ (by simp; omega), if_neg (by simp; omega)]

/-- Witness of C18: after "OK\r\n" on a buffer that held 'x' everywhere the
slots 0 to 3 hold 'O', 'K', NUL, NUL and the slots 4 and 5 still hold 'x'. -/
theorem uart_receiveString_frame_witness :
    ∃ m', uart_receiveString ⟨[79, 75, 13, 10], fun _ => 120, 1, []⟩ = some m' ∧
      List.map m'.receiverString [0, 1, 2, 3, 4, 5] = [79, 75, 0, 0, 120, 120] := by
  obtain ⟨m', h, hin, hout⟩ := uart_receiveString_frame [79, 75, 13] []
    ⟨[79, 75, 13, 10], fun _ => 120, 1, []⟩ (by decide) (by decide) rfl
  refine ⟨m', h, ?_⟩
  have e0 := hin 0 (by decide)
  have e1 := hin 1 (by decide)
  have e2 := hin 2 (by decide)
  have e3 := hin 3 (by decide)
  have e4 := hout 4 (by decide)
  have e5 := hout 5 (by decide)
  simp only [List.map, e0, e1, e2, e3, e4, e5]
  decide

/-- C19: for every incoming stream whose first LF is at index at most 9, and
whatever the prior buffer content, the null-terminated string held in
`receiverString` after `uart_receiveString` is the longest prefix of the
stream that contains no CR, LF or NUL byte; a stream that begins with CR or LF
yields the empty string, and the bytes received after an embedded CR are not
part of the stored line. -/
theorem uart_receiveString_longest_payload (pre rest : List Nat) (m : Machine)
    (hpre : ∀ b ∈ pre, b ≠ LF) (hlen : pre.length ≤ 9) (hrx : m.rx = pre ++ LF :: rest) :
    ∃ m', uart_receiveString m = some m' ∧
      stringAt m'.receiverString 0 MaxStringLength
        = m.rx.takeWhile (fun b => b ≠ CR ∧ b ≠ LF ∧ b ≠ NUL) ∧
      (m.rx.head? = some CR ∨ m.rx.head? = some LF →
        stringAt m'.receiverString 0 MaxStringLength = []) ∧
      (∀ a tl, m.rx = a ++ CR :: tl → (∀ x ∈ a, x ≠ CR ∧ x ≠ LF ∧ x ≠ NUL) →
        stringAt m'.receiverString 0 MaxStringLength = a) := by
  have hstr : stringAt (writeLine 0 (pre ++ [LF]) m.receiverString) 0 MaxStringLength
      = m.rx.takeWhile (fun b => b ≠ CR ∧ b ≠ LF ∧ b ≠ NUL) := by
    rw [hrx]
    exact longestPayload_eq pre rest m.receiverString (by unfold MaxStringLength; omega)
  refine ⟨_, uart_receiveString_line pre rest hpre m hrx, hstr, ?_, ?_⟩
  · intro hhead
    show stringAt (writeLine 0 (pre ++ [LF]) m.receiverString) 0 MaxStringLength = []
    rw [hstr]
    cases hl : m.rx with
    | nil => rfl
    | cons x xs =>
      rw [hl] at hhead
      simp only [List.head?_cons, Option.some.injEq] at hhead
      rw [List.takeWhile_cons]
      apply if_neg
      intro h
      have := of_decide_eq_true h
      rcases hhead with h' | h'
      · exact this.1 h'
      · exact this.2.1 h'
  · intro a tl ha hall
    show stringAt (writeLine 0 (pre ++ [LF]) m.receiverString) 0 MaxStringLength = a
    rw [hstr, ha]
    apply takeWhile_stop
    · intro x hx
      exact decide_eq_true (hall x hx)
    · exact decide_eq_false (fun h => h.1 rfl)

/-- Witness of C19: "A\rB\n" on a buffer that held 'x' everywhere leaves the
string "A". -/
theorem uart_receiveString_longest_payload_witness :
    ∃ m', uart_receiveString ⟨[65, 13, 66, 10], fun _ => 120, 1, []⟩ = some m' ∧
      stringAt m'.receiverString 0 MaxStringLength = [65] := by
  obtain ⟨m', h, hs, _⟩ := uart_receiveString_longest_payload [65, 13, 66] []
    ⟨[65, 13, 66, 10], fun _ => 120, 1, []⟩ (by decide) (by decide) rfl
  exact ⟨m', h, by rw [hs]; decide⟩

/-- C20: in both binary-framed commands the first raw byte sent after the text
tag is the number of raw bytes that follow it in the same request:
`bt832_advertisingStart` sends the length byte 5 followed by exactly the 5
bytes 255, 1, 1, 255, 50 and `bt832_send f`, for every `f`, sends the length
byte 2 followed by exactly 2 bytes. -/
theorem bt832_binary_length_byte (f : Bool) (m : Machine) (fuel : Nat) (hfuel : 255 < fuel) :
    (bt832_advertisingStart fuel m
        = uart_receiveString (sent m (ascii "AT+ADSTART=" ++ 5 :: [255, 1, 1, 255, 50])) ∧
      [255, 1, 1, 255, 50].length = 5 ∧
      ∀ m', bt832_advertisingStart fuel m = some m' →
        transmitted m'.trace
          = transmitted m.trace ++ (ascii "AT+ADSTART=" ++ 5 :: [255, 1, 1, 255, 50])) ∧
    (bt832_send fuel f m
        = uart_receiveString
            (sent m (ascii "AT+ADVMANU=" ++ 2 :: [if f then 0 else 1, 0])) ∧
      [if f then 0 else 1, 0].length = 2 ∧
      ∀ m', bt832_send fuel f m = some m' →
        transmitted m'.trace
          = transmitted m.trace ++ (ascii "AT+ADVMANU=" ++ 2 :: [if f then 0 else 1, 0])) ∧
    (LF ∈ m.rx →
      (∃ m', bt832_advertisingStart fuel m = some m') ∧
      (∃ m', bt832_send fuel f m = some m')) := by
  have ha := bt832_advertisingStart_sends m fuel hfuel
  have hs := bt832_send_sends f m fuel hfuel
  refine ⟨⟨ha, rfl, ?_⟩, ⟨hs, rfl, ?_⟩, ?_⟩
  · intro m' h
    rw [ha] at h
    exact transmitted_after_sent m m' _ h
  · intro m' h
    rw [hs] at h
    exact transmitted_after_sent m m' _ h
  · intro hrx
    rw [ha, hs]
    exact ⟨uart_receiveString_returns _ hrx, uart_receiveString_returns _ hrx⟩

/-- Witness of C20 with the flag set and the response "OK\r\n". -/
theorem bt832_binary_length_byte_witness :
    (∃ m', bt832_advertisingStart 256 ⟨[79, 75, 13, 10], fun _ => 0, 1, []⟩ = some m' ∧
      transmitted m'.trace = ascii "AT+ADSTART=" ++ 5 :: [255, 1, 1, 255, 50]) ∧
    (∃ m', bt832_send 256 true ⟨[79, 75, 13, 10], fun _ => 0, 1, []⟩ = some m' ∧
      transmitted m'.trace = ascii "AT+ADVMANU=" ++ 2 :: [0, 0]) := by
  obtain ⟨⟨_, _, ta⟩, ⟨_, _, ts⟩, hr⟩ :=
    bt832_binary_length_byte true ⟨[79, 75, 13, 10], fun _ => 0, 1, []⟩ 256 (by decide)
  obtain ⟨⟨m1, h1⟩, ⟨m2, h2⟩⟩ := hr (by decide)
  exact ⟨⟨m1, h1, by rw [ta m1 h1]; rfl⟩, ⟨m2, h2, by rw [ts m2 h2]; rfl⟩⟩

end Beacon
